import Mathlib

/-!
Shallow embedding of the drag-and-drop reordering controller in
`src/lib/utils/dnd.ts` (`dragDrop`).

The controller mutates the container's DOM child order as its single source
of truth.  We model the container's children as a `List Node` (elements only;
the placeholder created by the controller is itself a child carrying the
`data-placeholder` marker, modelled by the `ph` flag; ghost elements live on
`document.body`, outside the container, and are tracked by a counter).
Pointer events arrive with the geometric data the code reads from the DOM
(client coordinates, `getBoundingClientRect`, computed layout orientation,
`elementFromPoint` hit-test results) supplied as event payloads, since those
are environment inputs to the handlers.

Event dictionary (one constructor per document-level handler of the source):
  * `Ev.down`    — `handlePointerDown` on a draggable item;
  * `Ev.pmove`   — the pending-gesture `handleMove` closure (attached between
                   pointer-down and promotion/abandonment);
  * `Ev.pup`     — the pending-gesture `handleUp` closure;
  * `Ev.dmove`   — `handlePointerMove` (drag phase; the rAF throttle only
                   coalesces stale positions, so the frame callback
                   `updateDragPosition` is applied directly);
  * `Ev.dup`     — `handlePointerUp`, registered for both `pointerup` and
                   `pointercancel`, so one event models both;
  * `Ev.reconfig`— the `update(newOptions)` action method.
`pending = some g` models both the module variable `pendingDrag` and the
attachment of the per-gesture move/up listeners (they are created and
destroyed together in the source); `globalListeners` models the attachment of
the drag-phase document `pointermove`/`pointerup`/`pointercancel` listeners.
-/

namespace Dnd

/-- Client-space bounding box, as returned by `getBoundingClientRect`. -/
structure Rect where
  left : ℚ
  top : ℚ
  width : ℚ
  height : ℚ
deriving DecidableEq

def Rect.right (r : Rect) : ℚ := r.left + r.width

def Rect.bottom (r : Rect) : ℚ := r.top + r.height

/-- A child element of the container: its identity, whether it carries the
`data-draggable` attribute, and whether it is a placeholder node created by
`createPlaceholder` (which sets `data-placeholder`). -/
structure Node where
  id : Nat
  draggable : Bool
  ph : Bool
deriving DecidableEq

/-- The inline style properties (and the `dragging` class) that `startDrag`
sets on the dragged element and `cleanup` resets to the empty string. -/
structure Style where
  opacity : String
  transition : String
  pointerEvents : String
  dragging : Bool
deriving DecidableEq

/-- All inline values empty, `dragging` class absent. -/
def defaultStyle : Style := ⟨"", "", "", false⟩

/-- The values `startDrag` assigns: opacity 0.3, transition none,
pointer-events none, class `dragging`. -/
def dragStyle : Style := ⟨"0.3", "none", "none", true⟩

/-- The data captured by `handlePointerDown` for a pending gesture: the
candidate item, the down coordinates, `startTime`, the touch/scrollability
facts and the resulting `dragThreshold`. -/
structure Gesture where
  item : Nat
  startX : ℚ
  startY : ℚ
  startTime : ℚ
  isTouch : Bool
  isScrollable : Bool
  threshold : ℚ
deriving DecidableEq

/-- `DragDropOptions` (the `onDrop` callback itself is modelled by the
`drops` log in the state; `handle` records whether a handle selector is
configured). -/
structure Opts where
  disabled : Bool
  handle : Bool
deriving DecidableEq

/-- An element on the ancestor chain of a pointer-down target (target first,
then its ancestors), with the two attributes the handler's `closest` calls
test: matching the interactive-control selector, and `data-draggable`. -/
structure Anc where
  id : Nat
  interactive : Bool
  draggable : Bool
deriving DecidableEq

/-- Payload of a `pointerdown` event as `handlePointerDown` consumes it. -/
structure DownInfo where
  chain : List Anc
  x : ℚ
  y : ℚ
  now : ℚ
  isTouch : Bool
  isScrollable : Bool
  handleMatch : Bool

/-- The controller's mutable module state plus the observable effects we
reason about (`drops` logs the `onDrop` invocations in order). -/
structure DndState where
  children : List Node
  style : Nat → Style
  draggedNode : Option Node
  draggedIndex : Int
  ghostVar : Bool
  ghostDoc : Nat
  placeholderVar : Option Nat
  isDragging : Bool
  hasMoved : Bool
  pending : Option Gesture
  globalListeners : Bool
  drops : List (Int × Int)
  opts : Opts

/-- `getDraggableItems`: the children carrying `data-draggable`, in order. -/
def draggableItems (l : List Node) : List Node := l.filter (·.draggable)

def idsOf (l : List Node) : List Nat := l.map (·.id)

/-- `Array.prototype.indexOf` on a list of elements, by identity: the index
of the node with the given id, or -1. -/
def idxOf (l : List Node) (i : Nat) : Int :=
  match l with
  | [] => -1
  | x :: xs =>
    if x.id = i then 0
    else
      let r := idxOf xs i
      if r = -1 then -1 else r + 1

/-- `element.nextSibling` within the container: the id of the element
immediately after the node with id `i`, if any. -/
def nextSiblingId (l : List Node) (i : Nat) : Option Nat :=
  match l with
  | [] => none
  | x :: xs => if x.id = i then xs.head?.map (·.id) else nextSiblingId xs i

/-- Detaching the node with id `i` from the container. -/
def domRemove (l : List Node) (i : Nat) : List Node := l.filter (fun n => n.id ≠ i)

/-- Insert `n` immediately before the first node with id `r` (appending when
no such node exists; the DOM would instead throw, but every use below has the
reference in the tree). -/
def insertBeforeId (l : List Node) (n : Node) (r : Nat) : List Node :=
  match l with
  | [] => [n]
  | x :: xs => if x.id = r then n :: x :: xs else x :: insertBeforeId xs n r

/-- Insertion before an optional reference: append when the reference is
null, as DOM `insertBefore` does. -/
def insertAtRef (l : List Node) (n : Node) (ref : Option Nat) : List Node :=
  match ref with
  | none => l ++ [n]
  | some r => insertBeforeId l n r

/-- DOM `parent.insertBefore(n, ref)` for a parent whose child list is `l`:
if `ref` is `n` itself the DOM substitutes `n.nextSibling`; then `n` is
detached from its current position and inserted before `ref` (appended when
`ref` is null). -/
def domInsertBefore (l : List Node) (n : Node) (ref : Option Nat) : List Node :=
  let ref2 := if ref = some n.id then nextSiblingId l n.id else ref
  insertAtRef (domRemove l n.id) n ref2

/-- DOM `parent.appendChild(n)`: detach `n`, then append. -/
def domAppend (l : List Node) (n : Node) : List Node := domRemove l n.id ++ [n]

/-- Fresh id for a node created during a session (`createPlaceholder`). -/
def freshId (l : List Node) : Nat := (idsOf l).foldr max 0 + 1

/-- The placeholder node (`data-placeholder`, not `data-draggable`). -/
def phNode (pid : Nat) : Node := ⟨pid, false, true⟩

/-- `const dragThreshold = isTouch ? (isScrollable ? 30 : 20) : 8;` -/
def dragThreshold (isTouch isScrollable : Bool) : ℚ :=
  if isTouch then (if isScrollable then 30 else 20) else 8

/-- The child-order mutation performed by `updateDragPosition` (lines
104-195 of `dnd.ts`), given the dragged node, the placeholder id, the
pointer position, the per-call `getBoundingClientRect` results, the layout
orientation derived from the container's computed style, and the hit-test
result of `getElementUnderPoint`. -/
def updateChildren (l : List Node) (dn : Node) (pid : Nat) (x y : ℚ)
    (rect : Nat → Rect) (horizontal : Bool) (hit : Option Nat) : List Node :=
  match hit with
  | some h =>
    if h ≠ dn.id ∧ h ≠ pid then
      let items := draggableItems l
      let hi := idxOf items h
      let di := idxOf items dn.id
      if hi ≠ -1 ∧ di ≠ -1 ∧ hi ≠ di then
        let hr := rect h
        let ref : Option Nat :=
          if (if horizontal then x < hr.left + hr.width / 2
              else y < hr.top + hr.height / 2)
          then some h
          else nextSiblingId l h
        let l1 :=
          match ref with
          | some r => if r ≠ dn.id then domInsertBefore l dn (some r) else l
          | none => domAppend l dn
        if (l1.any (fun n => n.id = pid)) ∧ nextSiblingId l1 dn.id ≠ some pid then
          domInsertBefore l1 (phNode pid) (nextSiblingId l1 dn.id)
        else l1
      else l
    else l
  | none =>
    match draggableItems l with
    | [] => l
    | f :: fs =>
      let lastN := fs.getLastD f
      if horizontal then
        if x < (rect f.id).left then
          let l1 := domInsertBefore l dn (some f.id)
          domInsertBefore l1 (phNode pid) (nextSiblingId l1 dn.id)
        else if x > (rect lastN.id).right then
          let l1 := domAppend l dn
          domInsertBefore l1 (phNode pid) (nextSiblingId l1 dn.id)
        else l
      else
        if y < (rect f.id).top then
          let l1 := domInsertBefore l dn (some f.id)
          domInsertBefore l1 (phNode pid) (nextSiblingId l1 dn.id)
        else if y > (rect lastN.id).bottom then
          let l1 := domAppend l dn
          domInsertBefore l1 (phNode pid) (nextSiblingId l1 dn.id)
        else l

/-- `startDrag(item, e)`: record the starting index among draggable
siblings, abort if the item is not among them, otherwise create the ghost
and the placeholder (inserted right after the item), mute the item's style,
and attach the drag-phase document listeners. -/
def startDrag (s : DndState) (item : Nat) : DndState :=
  if s.isDragging then s
  else
    let items := draggableItems s.children
    let idx := idxOf items item
    if idx = -1 then
      { s with isDragging := false, draggedNode := none, draggedIndex := -1 }
    else
      match s.children.find? (fun n => n.id = item) with
      | none => s
      | some dn =>
        let pid := freshId s.children
        { s with
          isDragging := true
          draggedNode := some dn
          draggedIndex := idx
          ghostVar := true
          ghostDoc := s.ghostDoc + 1
          placeholderVar := some pid
          children := domInsertBefore s.children (phNode pid) (nextSiblingId s.children item)
          style := fun i => if i = item then dragStyle else s.style i
          globalListeners := true }

/-- `cleanup()`: drop the pending gesture, remove ghost and placeholder
nodes, reset the dragged item's inline styles and `dragging` class, and
reset the session flags.  It does not touch the drag-phase document
listeners (those are removed only in `handlePointerUp` and `destroy`). -/
def cleanup (s : DndState) : DndState :=
  let s1 := { s with pending := none }
  let s2 :=
    if s1.ghostVar then { s1 with ghostDoc := s1.ghostDoc - 1, ghostVar := false } else s1
  let s3 :=
    match s2.placeholderVar with
    | some p =>
      { s2 with
        children := s2.children.filter (fun n => ¬(n.ph ∧ n.id = p))
        placeholderVar := none }
    | none => s2
  let s4 :=
    match s3.draggedNode with
    | some dn =>
      { s3 with
        style := fun i => if i = dn.id then defaultStyle else s3.style i
        draggedNode := none }
    | none => s3
  { s4 with isDragging := false, draggedIndex := -1, hasMoved := false }

/-- `handlePointerUp` (registered for `pointerup` and `pointercancel`):
read the final index from the live list, invoke `onDrop` when the position
changed, then clean up and detach the drag-phase listeners. -/
def handlePointerUp (s : DndState) : DndState :=
  if s.isDragging then
    let items := draggableItems s.children
    let finalIndex : Int :=
      match s.draggedNode with
      | some dn => idxOf items dn.id
      | none => -1
    let s1 :=
      if s.draggedNode.isSome ∧ finalIndex ≠ -1 ∧ finalIndex ≠ s.draggedIndex then
        { s with drops := s.drops ++ [(s.draggedIndex, finalIndex)] }
      else s
    { cleanup s1 with globalListeners := false }
  else s

/-- `handlePointerMove` plus the frame callback `updateDragPosition`: ignored
unless a drag is active with ghost, dragged element and placeholder present;
otherwise mutates the child order. -/
def handlePointerMove (s : DndState) (x y : ℚ) (horizontal : Bool)
    (hit : Option Nat) (rect : Nat → Rect) : DndState :=
  if s.isDragging then
    match s.draggedNode, s.placeholderVar with
    | some dn, some pid =>
      if s.ghostVar then
        { s with children := updateChildren s.children dn pid x y rect horizontal hit }
      else s
    | _, _ => s
  else s

/-- The pending-gesture `handleMove` closure: scroll disambiguation and the
distance/time threshold, promoting to `startDrag` when passed. -/
def handleMove (s : DndState) (x y now : ℚ) : DndState :=
  match s.pending with
  | none => s
  | some g =>
    let moveDistanceY := |y - g.startY|
    let moveDistanceX := |x - g.startX|
    let moveDistance := max moveDistanceY moveDistanceX
    let elapsedTime := now - g.startTime
    if g.isTouch = true ∧ g.isScrollable = true then
      if moveDistanceY > moveDistanceX * (3 / 2) then
        { s with pending := none }
      else if moveDistance < g.threshold ∨
          (moveDistance < g.threshold * (7 / 10) ∧ elapsedTime < 200) then
        s
      else
        let s1 := { s with hasMoved := true }
        let s2 := startDrag s1 g.item
        { s2 with pending := none }
    else
      if moveDistance < g.threshold then s
      else
        let s1 := { s with hasMoved := true }
        let s2 := startDrag s1 g.item
        { s2 with pending := none }

/-- `handlePointerDown`: ignore when disabled or dragging, when the target
sits under an interactive control other than the closest draggable, when a
configured handle selector does not match, or when no draggable ancestor
exists; otherwise record a pending gesture and attach its listeners. -/
def handlePointerDown (s : DndState) (e : DownInfo) : DndState :=
  if s.opts.disabled ∨ s.isDragging then s
  else
    let interactiveElement := e.chain.find? (·.interactive)
    let draggableClosest := e.chain.find? (·.draggable)
    if interactiveElement.isSome ∧ interactiveElement ≠ draggableClosest then s
    else if s.opts.handle ∧ ¬e.handleMatch then s
    else
      match draggableClosest with
      | none => s
      | some item =>
        { s with
          hasMoved := false
          pending := some
            { item := item.id
              startX := e.x
              startY := e.y
              startTime := e.now
              isTouch := e.isTouch
              isScrollable := e.isScrollable
              threshold := dragThreshold e.isTouch e.isScrollable } }

/-- The document-level events a controller instance can receive. -/
inductive Ev where
  | down (e : DownInfo)
  | pmove (x y now : ℚ)
  | pup
  | dmove (x y : ℚ) (horizontal : Bool) (hit : Option Nat) (rect : Nat → Rect)
  | dup
  | reconfig (o : Opts)

/-- One event step.  `pmove`/`pup` reach their closures only while the
pending listeners are attached; `dmove`/`dup` only while the drag-phase
document listeners are attached. -/
def step (s : DndState) : Ev → DndState
  | Ev.down e => handlePointerDown s e
  | Ev.pmove x y now => handleMove s x y now
  | Ev.pup => if s.pending.isSome then { s with pending := none } else s
  | Ev.dmove x y horizontal hit rect =>
    if s.globalListeners then handlePointerMove s x y horizontal hit rect else s
  | Ev.dup => if s.globalListeners then handlePointerUp s else s
  | Ev.reconfig o =>
    let s1 := { s with opts := o }
    if o.disabled ∧ s1.isDragging then cleanup s1 else s1

/-- State of a freshly attached controller. -/
def initSt (c : List Node) (o : Opts) : DndState :=
  { children := c
    style := fun _ => defaultStyle
    draggedNode := none
    draggedIndex := -1
    ghostVar := false
    ghostDoc := 0
    placeholderVar := none
    isDragging := false
    hasMoved := false
    pending := none
    globalListeners := false
    drops := []
    opts := o }

def run (s : DndState) (evs : List Ev) : DndState := evs.foldl step s

/-- States a controller attached to initial children `c` can reach. -/
def Reachable (c : List Node) (o : Opts) (s : DndState) : Prop :=
  ∃ evs : List Ev, s = run (initSt c o) evs

/-- Payload of one drag-phase move (`Ev.dmove`). -/
structure DM where
  x : ℚ
  y : ℚ
  horizontal : Bool
  hit : Option Nat
  rect : Nat → Rect

def applyDmoves (s : DndState) (ms : List DM) : DndState :=
  ms.foldl (fun s m => step s (Ev.dmove m.x m.y m.horizontal m.hit m.rect)) s

/-! ### Concrete fixtures used for counterexamples and witnesses -/

/-- Two plain draggable items. -/
def twoItems : List Node := [⟨1, true, false⟩, ⟨2, true, false⟩]

/-- Three plain draggable items. -/
def threeItems : List Node := [⟨1, true, false⟩, ⟨2, true, false⟩, ⟨3, true, false⟩]

/-- A touch pointer-down at the origin on item 1, inside a scrollable list. -/
def touchDown : DownInfo :=
  { chain := [⟨1, false, true⟩], x := 0, y := 0, now := 0,
    isTouch := true, isScrollable := true, handleMatch := true }

/-- A mouse pointer-down at the origin on item 1. -/
def mouseDown : DownInfo :=
  { chain := [⟨1, false, true⟩], x := 0, y := 0, now := 0,
    isTouch := false, isScrollable := false, handleMatch := true }

/-- The controller right after `touchDown`: a pending touch gesture on a
scrollable container (threshold 30). -/
def touchPending : DndState := run (initSt twoItems ⟨false, false⟩) [Ev.down touchDown]

/-- The gesture recorded by `touchDown`. -/
def touchGesture : Gesture := ⟨1, 0, 0, 0, true, true, 30⟩

/-- A pointer-down whose target sits under an interactive control (id 5)
that is not inside any draggable item. -/
def interactiveDown : DownInfo :=
  { chain := [⟨5, true, false⟩, ⟨6, false, false⟩], x := 0, y := 0, now := 0,
    isTouch := false, isScrollable := false, handleMatch := true }

/-- An active mouse-drag session on item 1 of `twoItems`: pointer-down, then
a 10 px move (past the 8 px threshold), which started the drag. -/
def dragActive : DndState :=
  run (initSt twoItems ⟨false, false⟩) [Ev.down mouseDown, Ev.pmove 10 0 50]

/-- "Beyond the first item's leading edge": left of its left edge in
horizontal layout, above its top edge in vertical layout. -/
def leadingEdge (horizontal : Bool) (x y : ℚ) (r : Rect) : Prop :=
  if horizontal then x < r.left else y < r.top

/-- "Beyond the last item's trailing edge": right of its right edge in
horizontal layout, below its bottom edge in vertical layout. -/
def trailingEdge (horizontal : Bool) (x y : ℚ) (r : Rect) : Prop :=
  if horizontal then x > r.right else y > r.bottom

/-- A mouse pointer-down on item 2 of a vertical three-item list. -/
def mouseDown2 : DownInfo :=
  { chain := [⟨2, false, true⟩], x := 0, y := 25, now := 0,
    isTouch := false, isScrollable := false, handleMatch := true }

/-- Client rects of the three stacked 20 px-tall items. -/
def edgeRects : Nat → Rect := fun i =>
  if i = 1 then ⟨0, 0, 50, 20⟩ else if i = 2 then ⟨0, 20, 50, 20⟩ else ⟨0, 40, 50, 20⟩

/-- Dragging item 2 of three off the end of the list: pointer-down, a move
past the threshold, a position update below the last item's bottom edge, and
release. -/
def dragOffEndEvs : List Ev :=
  [Ev.down mouseDown2, Ev.pmove 0 40 50, Ev.dmove 0 100 false none edgeRects, Ev.dup]

/-- The hovered-item behaviour as the specification words it: decide the
insertion side against the hovered item's midpoint, insert the dragged item
before the hovered item (before side) or before the hovered item's next
sibling (after side; append at the end when there is none — and when that
next sibling is the dragged item itself the DOM insertion is a no-op), then
reposition the placeholder to immediately follow the dragged item if it is
not already there.  Stated from the spec to be compared with
`updateChildren`. -/
def claimHoverResult (l : List Node) (dn : Node) (pid hv : Nat) (x y : ℚ)
    (rect : Nat → Rect) (horizontal : Bool) : List Node :=
  let c1 :=
    if (if horizontal then x < (rect hv).left + (rect hv).width / 2
        else y < (rect hv).top + (rect hv).height / 2) then
      domInsertBefore l dn (some hv)
    else
      match nextSiblingId l hv with
      | some r => if r = dn.id then l else domInsertBefore l dn (some r)
      | none => domAppend l dn
  if nextSiblingId c1 dn.id = some pid then c1
  else domInsertBefore c1 (phNode pid) (nextSiblingId c1 dn.id)

/-- Invariant of a pending (or already discarded) gesture spawned by the
pointer-down `e`: no drag has started, the drag-phase listeners are off, no
`onDrop` call has been added, and any pending gesture carries `e`'s
coordinates, input kind and threshold. -/
def QuietPending (e : DownInfo) (D : List (Int × Int)) (t : DndState) : Prop :=
  t.isDragging = false ∧ t.globalListeners = false ∧ t.drops = D ∧
    ∀ g, t.pending = some g →
      g.startX = e.x ∧ g.startY = e.y ∧ g.isTouch = e.isTouch ∧
        g.isScrollable = e.isScrollable ∧
        g.threshold = dragThreshold e.isTouch e.isScrollable

/-- Well-formedness of the container's children during a session dragging
`dn` with placeholder id `p`: unique ids, exactly one placeholder node (the
one the session created), and the dragged id identifying the dragged node. -/
def ChildrenWF (dn : Node) (p : Nat) (l : List Node) : Prop :=
  (idsOf l).Nodup ∧ l.countP (·.ph) = 1 ∧
    (∀ m ∈ l, m.ph = true → m = phNode p) ∧
    (∀ m ∈ l, m.id = dn.id → m = dn)

/-- The controller's session invariant: outside a drag no ghost or
placeholder exists and no element is marked dragged; during a drag exactly
one ghost and one placeholder exist and the children are well-formed. -/
def SessionInv (s : DndState) : Prop :=
  (idsOf s.children).Nodup ∧
  (s.isDragging = false →
    s.ghostDoc = 0 ∧ s.ghostVar = false ∧ s.placeholderVar = none ∧
      s.children.countP (·.ph) = 0 ∧ s.draggedNode = none) ∧
  (s.isDragging = true →
    s.ghostDoc = 1 ∧ s.ghostVar = true ∧
      ∃ p dn, s.placeholderVar = some p ∧ s.draggedNode = some dn ∧
        dn.ph = false ∧ dn.draggable = true ∧ dn.id ≠ p ∧
        ChildrenWF dn p s.children)

/-- A mid-drag state whose dragged element has disappeared from the list
of draggable children: only item 2 and the placeholder (id 3) remain while
node 1 is still recorded as dragged. -/
def orphanedDrag : DndState :=
  { children := [⟨2, true, false⟩, ⟨3, false, true⟩]
    style := fun _ => defaultStyle
    draggedNode := some ⟨1, true, false⟩
    draggedIndex := 0
    ghostVar := true
    ghostDoc := 1
    placeholderVar := some 3
    isDragging := true
    hasMoved := true
    pending := none
    globalListeners := true
    drops := []
    opts := ⟨false, false⟩ }

/-! ### Helper lemmas about the DOM-list primitives -/

theorem mem_idsOf {l : List Node} {i : Nat} : i ∈ idsOf l ↔ ∃ n ∈ l, n.id = i := by
  simp [idsOf]

theorem idxOf_cases (l : List Node) (i : Nat) : idxOf l i = -1 ∨ 0 ≤ idxOf l i := by
  induction l with
  | nil => simp [idxOf]
  | cons x xs ih =>
    by_cases hx : x.id = i
    · simp [idxOf, hx]
    · simp only [idxOf, if_neg hx]
      rcases ih with h | h
      · simp [h]
      · by_cases hr : idxOf xs i = -1
        · simp [hr]
        · simp only [if_neg hr]
          omega

theorem mem_idsOf_cons {x : Node} {xs : List Node} {i : Nat} :
    i ∈ idsOf (x :: xs) ↔ i = x.id ∨ i ∈ idsOf xs := by
  simp [idsOf]

theorem idxOf_eq_neg_one_iff (l : List Node) (i : Nat) : idxOf l i = -1 ↔ i ∉ idsOf l := by
  induction l with
  | nil => simp [idxOf, idsOf]
  | cons x xs ih =>
    rw [mem_idsOf_cons]
    by_cases hx : x.id = i
    · have hL : idxOf (x :: xs) i = 0 := by simp [idxOf, hx]
      rw [hL]
      constructor
      · intro h; exact absurd h (by decide)
      · intro h; exact absurd (Or.inl hx.symm) h
    · simp only [idxOf, if_neg hx]
      by_cases hr : idxOf xs i = -1
      · rw [if_pos hr]
        constructor
        · rintro - (h | h)
          · exact hx h.symm
          · exact ih.mp hr h
        · intro _; rfl
      · have h0 : 0 ≤ idxOf xs i := (idxOf_cases xs i).resolve_left hr
        have hmem : i ∈ idsOf xs := not_not.mp (mt ih.mpr hr)
        rw [if_neg hr]
        constructor
        · intro h; exact absurd h (by omega)
        · intro h; exact absurd (Or.inr hmem) h

theorem idxOf_ne_neg_one_iff (l : List Node) (i : Nat) : idxOf l i ≠ -1 ↔ i ∈ idsOf l := by
  rw [ne_eq, idxOf_eq_neg_one_iff, not_not]

theorem find?_id_mem {l : List Node} {i : Nat} (h : i ∈ idsOf l) :
    ∃ n, l.find? (fun n => n.id = i) = some n ∧ n.id = i := by
  induction l with
  | nil => simp [idsOf] at h
  | cons x xs ih =>
    by_cases hx : x.id = i
    · exact ⟨x, by simp [List.find?_cons, hx], hx⟩
    · have hmem : i ∈ idsOf xs := by
        simp [idsOf] at h ⊢
        rcases h with h | h
        · exact absurd h.symm hx
        · exact h
      rcases ih hmem with ⟨n, hfind, hid⟩
      exact ⟨n, by simp [List.find?_cons, hx, hfind], hid⟩

theorem insertBeforeId_perm (l : List Node) (n : Node) (r : Nat) :
    List.Perm (insertBeforeId l n r) (n :: l) := by
  induction l with
  | nil => simp [insertBeforeId]
  | cons x xs ih =>
    by_cases hx : x.id = r
    · simp [insertBeforeId, hx]
    · simp only [insertBeforeId, if_neg hx]
      exact (ih.cons x).trans (List.Perm.swap n x xs)

theorem insertAtRef_perm (l : List Node) (n : Node) (ref : Option Nat) :
    List.Perm (insertAtRef l n ref) (n :: l) := by
  cases ref with
  | none => exact List.perm_append_singleton n l
  | some r => exact insertBeforeId_perm l n r

theorem domInsertBefore_perm (l : List Node) (n : Node) (ref : Option Nat) :
    List.Perm (domInsertBefore l n ref) (n :: domRemove l n.id) := by
  unfold domInsertBefore
  exact insertAtRef_perm _ n _

theorem domAppend_perm (l : List Node) (n : Node) :
    List.Perm (domAppend l n) (n :: domRemove l n.id) := by
  simpa [domAppend] using List.perm_append_singleton n (domRemove l n.id)

theorem domRemove_sublist (l : List Node) (i : Nat) : List.Sublist (domRemove l i) l :=
  List.filter_sublist l

theorem not_mem_ids_domRemove (l : List Node) (i : Nat) : i ∉ idsOf (domRemove l i) := by
  intro h
  rcases mem_idsOf.mp h with ⟨n, hmem, hid⟩
  simp [domRemove, List.mem_filter] at hmem
  exact hmem.2 hid

theorem domRemove_eq_self {l : List Node} {i : Nat} (h : i ∉ idsOf l) :
    domRemove l i = l := by
  unfold domRemove
  rw [List.filter_eq_self]
  intro n hn
  have hne : n.id ≠ i := fun hid => h (mem_idsOf.mpr ⟨n, hn, hid⟩)
  simpa using hne

theorem le_foldr_max (xs : List Nat) : ∀ i ∈ xs, i ≤ xs.foldr max 0 := by
  induction xs with
  | nil => simp
  | cons x xs ih =>
    intro i hi
    rcases List.mem_cons.mp hi with h | h
    · subst h; exact le_max_left _ _
    · exact le_trans (ih i h) (le_max_right _ _)

theorem freshId_not_mem (l : List Node) : freshId l ∉ idsOf l := by
  intro h
  have hle := le_foldr_max (idsOf l) _ h
  simp only [freshId] at hle
  omega

theorem nodup_ids_domRemove {l : List Node} (h : (idsOf l).Nodup) (i : Nat) :
    (idsOf (domRemove l i)).Nodup := by
  have hs : List.Sublist (idsOf (domRemove l i)) (idsOf l) := by
    simpa [idsOf] using (domRemove_sublist l i).map (·.id)
  exact h.sublist hs

theorem nodup_ids_domInsertBefore {l : List Node} (h : (idsOf l).Nodup)
    (n : Node) (ref : Option Nat) : (idsOf (domInsertBefore l n ref)).Nodup := by
  have hperm : List.Perm (idsOf (domInsertBefore l n ref))
      (n.id :: idsOf (domRemove l n.id)) := by
    simpa [idsOf] using (domInsertBefore_perm l n ref).map (·.id)
  refine hperm.symm.nodup ?_
  exact List.Nodup.cons (not_mem_ids_domRemove l n.id) (nodup_ids_domRemove h n.id)

theorem nodup_ids_domAppend {l : List Node} (h : (idsOf l).Nodup) (n : Node) :
    (idsOf (domAppend l n)).Nodup := by
  have hperm : List.Perm (idsOf (domAppend l n)) (n.id :: idsOf (domRemove l n.id)) := by
    simpa [idsOf] using (domAppend_perm l n).map (·.id)
  refine hperm.symm.nodup ?_
  exact List.Nodup.cons (not_mem_ids_domRemove l n.id) (nodup_ids_domRemove h n.id)

theorem mem_ids_domRemove {l : List Node} {i j : Nat} (hne : j ≠ i) :
    j ∈ idsOf (domRemove l i) ↔ j ∈ idsOf l := by
  simp only [mem_idsOf, domRemove, List.mem_filter]
  constructor
  · rintro ⟨n, ⟨hn, -⟩, hid⟩
    exact ⟨n, hn, hid⟩
  · rintro ⟨n, hn, hid⟩
    refine ⟨n, ⟨hn, ?_⟩, hid⟩
    simp [hid, hne]

theorem nextSiblingId_mem {l : List Node} {d r : Nat}
    (h : nextSiblingId l d = some r) : r ∈ idsOf l := by
  induction l with
  | nil => simp [nextSiblingId] at h
  | cons x xs ih =>
    by_cases hx : x.id = d
    · simp only [nextSiblingId, if_pos hx] at h
      cases xs with
      | nil => simp at h
      | cons z zs =>
        simp at h
        subst h
        simp [idsOf]
    · simp only [nextSiblingId, if_neg hx] at h
      rcases mem_idsOf.mp (ih h) with ⟨n, hn, hid⟩
      exact mem_idsOf.mpr ⟨n, List.mem_cons_of_mem x hn, hid⟩

theorem nextSiblingId_domRemove {l : List Node} {d p : Nat}
    (hnd : (idsOf l).Nodup) (hdp : d ≠ p) (href : nextSiblingId l d ≠ some p)
    (hdm : d ∈ idsOf l) :
    nextSiblingId (domRemove l p) d = nextSiblingId l d := by
  induction l with
  | nil => simp [idsOf] at hdm
  | cons x xs ih =>
    have hnd2 : (idsOf xs).Nodup := (List.nodup_cons.mp hnd).2
    by_cases hxp : x.id = p
    · have hxd : ¬x.id = d := by rw [hxp]; exact fun h => hdp h.symm
      have hdm2 : d ∈ idsOf xs := by
        rcases mem_idsOf_cons.mp hdm with h | h
        · exact absurd h.symm hxd
        · exact h
      have href2 : nextSiblingId xs d ≠ some p := by
        simpa [nextSiblingId, hxd] using href
      have : domRemove (x :: xs) p = domRemove xs p := by simp [domRemove, hxp]
      rw [this, ih hnd2 href2 hdm2]
      simp [nextSiblingId, hxd]
    · have hkeep : domRemove (x :: xs) p = x :: domRemove xs p := by
        simp [domRemove, hxp]
      rw [hkeep]
      by_cases hxd : x.id = d
      · simp only [nextSiblingId, if_pos hxd] at href ⊢
        cases xs with
        | nil => simp [domRemove]
        | cons z zs =>
          have hzp : ¬z.id = p := by
            simp at href
            exact href
          simp [domRemove, hzp]
      · simp only [nextSiblingId, if_neg hxd] at href ⊢
        have hdm2 : d ∈ idsOf xs := by
          rcases mem_idsOf_cons.mp hdm with h | h
          · exact absurd h.symm hxd
          · exact h
        exact ih hnd2 href hdm2

theorem nextSiblingId_insertAtRef {l : List Node} {d : Nat} {n : Node}
    (hnd : (idsOf l).Nodup) (hdm : d ∈ idsOf l) (hne : n.id ≠ d) :
    nextSiblingId (insertAtRef l n (nextSiblingId l d)) d = some n.id := by
  induction l with
  | nil => simp [idsOf] at hdm
  | cons x xs ih =>
    have hnd2 : (idsOf xs).Nodup := (List.nodup_cons.mp hnd).2
    have hxnot : x.id ∉ idsOf xs := (List.nodup_cons.mp hnd).1
    by_cases hxd : x.id = d
    · simp only [nextSiblingId, if_pos hxd]
      cases xs with
      | nil =>
        simp [insertAtRef, nextSiblingId, hxd, hne]
      | cons z zs =>
        simp only [List.head?, Option.map_some]
        have hzx : ¬z.id = x.id := by
          intro h
          exact hxnot (mem_idsOf_cons.mpr (Or.inl h.symm))
        have hzd : ¬z.id = d := by rw [← hxd]; exact hzx
        have hdz : ¬d = z.id := fun h => hzd h.symm
        simp [insertAtRef, insertBeforeId, hzd, hdz, hzx, hxd, nextSiblingId, hne]
    · simp only [nextSiblingId, if_neg hxd]
      have hdm2 : d ∈ idsOf xs := by
        rcases mem_idsOf_cons.mp hdm with h | h
        · exact absurd h.symm hxd
        · exact h
      cases href : nextSiblingId xs d with
      | none =>
        have := ih hnd2 hdm2
        rw [href] at this
        simp only [insertAtRef] at this ⊢
        simp [nextSiblingId, hxd, this]
      | some r =>
        have hr : r ∈ idsOf xs := nextSiblingId_mem href
        have hxr : ¬x.id = r := fun h => hxnot (h ▸ hr)
        have := ih hnd2 hdm2
        rw [href] at this
        simp only [insertAtRef, insertBeforeId, if_neg hxr] at this ⊢
        simp [nextSiblingId, hxd, this]

theorem domInsertBefore_self {l : List Node} {n : Node} (hmem : n ∈ l)
    (hnd : (idsOf l).Nodup) : domInsertBefore l n (some n.id) = l := by
  induction l with
  | nil => simp at hmem
  | cons x xs ih =>
    have hnd2 : (idsOf xs).Nodup := (List.nodup_cons.mp hnd).2
    have hxnot : x.id ∉ idsOf xs := (List.nodup_cons.mp hnd).1
    by_cases hx : x.id = n.id
    · have hxn : x = n := by
        rcases List.mem_cons.mp hmem with h | h
        · exact h.symm
        · exact absurd (hx ▸ mem_idsOf.mpr ⟨n, h, rfl⟩) hxnot
      subst hxn
      have hremc : domRemove (x :: xs) x.id = xs := by
        have h1 : domRemove (x :: xs) x.id = domRemove xs x.id := by
          simp [domRemove, List.filter_cons]
        rw [h1]
        exact domRemove_eq_self (by simpa using hxnot)
      have hgoal : domInsertBefore (x :: xs) x (some x.id)
          = insertAtRef xs x (xs.head?.map (·.id)) := by
        simp [domInsertBefore, hremc, nextSiblingId]
      rw [hgoal]
      cases xs with
      | nil => simp [insertAtRef]
      | cons z zs => simp [insertAtRef, insertBeforeId]
    · have hmem2 : n ∈ xs := by
        rcases List.mem_cons.mp hmem with h | h
        · exact absurd (congrArg Node.id h).symm hx
        · exact h
      have ihx := ih hmem2 hnd2
      have hxn : ¬x.id = n.id := hx
      have hfix : domInsertBefore (x :: xs) n (some n.id)
          = insertAtRef (x :: domRemove xs n.id) n (nextSiblingId xs n.id) := by
        simp [domInsertBefore, nextSiblingId, hxn, domRemove]
      have hfix2 : insertAtRef (domRemove xs n.id) n (nextSiblingId xs n.id) = xs := by
        simpa [domInsertBefore] using ihx
      rw [hfix]
      cases href : nextSiblingId xs n.id with
      | none =>
        rw [href] at hfix2
        simp only [insertAtRef] at hfix2 ⊢
        rw [List.cons_append, hfix2]
      | some r =>
        have hr : r ∈ idsOf xs := nextSiblingId_mem href
        have hxr : ¬x.id = r := fun h => hxnot (h ▸ hr)
        rw [href] at hfix2
        simp only [insertAtRef, insertBeforeId, if_neg hxr] at hfix2 ⊢
        rw [hfix2]

/-- After the placeholder-repositioning call
`insertBefore(placeholder, draggedElement.nextSibling)`, the placeholder is
the dragged element's immediate next sibling. -/
theorem nextSiblingId_place_ph {c1 : List Node} {dn : Node} {pid : Nat}
    (hnd : (idsOf c1).Nodup) (hdm : dn.id ∈ idsOf c1) (hne : pid ≠ dn.id)
    (hph : phNode pid ∈ c1) :
    nextSiblingId (domInsertBefore c1 (phNode pid) (nextSiblingId c1 dn.id)) dn.id
      = some pid := by
  by_cases hcase : nextSiblingId c1 dn.id = some pid
  · rw [hcase]
    show nextSiblingId (domInsertBefore c1 (phNode pid) (some (phNode pid).id)) dn.id
      = some pid
    rw [domInsertBefore_self hph hnd]
    exact hcase
  · have hfix : domInsertBefore c1 (phNode pid) (nextSiblingId c1 dn.id)
        = insertAtRef (domRemove c1 pid) (phNode pid) (nextSiblingId c1 dn.id) := by
      simp [domInsertBefore, phNode, hcase]
    rw [hfix]
    have hnd2 : (idsOf (domRemove c1 pid)).Nodup := nodup_ids_domRemove hnd pid
    have hdm2 : dn.id ∈ idsOf (domRemove c1 pid) :=
      (mem_ids_domRemove (fun h => hne h.symm)).mpr hdm
    have hrefeq : nextSiblingId (domRemove c1 pid) dn.id = nextSiblingId c1 dn.id :=
      nextSiblingId_domRemove hnd (fun h => hne h.symm) hcase hdm
    rw [← hrefeq]
    exact nextSiblingId_insertAtRef hnd2 hdm2 hne

theorem draggableItems_insertBeforeId_not {l : List Node} {n : Node} (r : Nat)
    (h : n.draggable = false) :
    draggableItems (insertBeforeId l n r) = draggableItems l := by
  induction l with
  | nil => simp [insertBeforeId, draggableItems, h]
  | cons x xs ih =>
    by_cases hx : x.id = r
    · simp [insertBeforeId, hx, draggableItems, List.filter_cons, h]
    · simp only [insertBeforeId, if_neg hx, draggableItems, List.filter_cons] at ih ⊢
      rw [ih]

theorem draggableItems_insertAtRef_not {l : List Node} {n : Node} (ref : Option Nat)
    (h : n.draggable = false) :
    draggableItems (insertAtRef l n ref) = draggableItems l := by
  cases ref with
  | none => simp [insertAtRef, draggableItems, List.filter_append, h]
  | some r => exact draggableItems_insertBeforeId_not r h

theorem draggableItems_domRemove_of {l : List Node} {p : Nat}
    (h : ∀ m ∈ l, m.draggable = true → m.id ≠ p) :
    draggableItems (domRemove l p) = draggableItems l := by
  induction l with
  | nil => rfl
  | cons x xs ih =>
    have ih2 := ih (fun m hm => h m (List.mem_cons_of_mem x hm))
    by_cases hx : x.id = p
    · have hxd : x.draggable = false := by
        by_contra hc
        exact h x (List.mem_cons_self x xs) (eq_true_of_ne_false hc) hx
      simp only [domRemove, List.filter_cons] at ih2 ⊢
      simp only [hx, draggableItems, List.filter_cons, hxd]
      simpa [draggableItems, hxd] using ih2
    · simp only [domRemove, List.filter_cons] at ih2 ⊢
      simp only [draggableItems, List.filter_cons] at ih2 ⊢
      cases hxd : x.draggable <;> simp [hx, hxd, ih2] <;>
        simpa [draggableItems, domRemove, hxd] using ih2

/-- Inserting the placeholder anywhere does not change the draggable-only
ordering. -/
theorem draggableItems_domInsertBefore_ph {l : List Node} {pid : Nat}
    (ref : Option Nat) (h : ∀ m ∈ l, m.draggable = true → m.id ≠ pid) :
    draggableItems (domInsertBefore l (phNode pid) ref) = draggableItems l := by
  unfold domInsertBefore
  rw [draggableItems_insertAtRef_not _ rfl]
  exact draggableItems_domRemove_of h

theorem domAppend_eq_insert_none (l : List Node) (n : Node) :
    domAppend l n = domInsertBefore l n none := rfl

theorem mem_domInsertBefore_of {l : List Node} {m n : Node} (ref : Option Nat)
    (hm : m ∈ l) (hne : m.id ≠ n.id) : m ∈ domInsertBefore l n ref := by
  rw [(domInsertBefore_perm l n ref).mem_iff]
  refine List.mem_cons_of_mem _ ?_
  rw [domRemove, List.mem_filter]
  exact ⟨hm, by simp [hne]⟩

theorem self_mem_domInsertBefore (l : List Node) (n : Node) (ref : Option Nat) :
    n ∈ domInsertBefore l n ref := by
  rw [(domInsertBefore_perm l n ref).mem_iff]
  exact List.mem_cons_self _ _

theorem mem_of_mem_domInsertBefore {l : List Node} {n m : Node} {ref : Option Nat}
    (hm : m ∈ domInsertBefore l n ref) : m = n ∨ m ∈ l := by
  have h2 := (domInsertBefore_perm l n ref).mem_iff.mp hm
  rcases List.mem_cons.mp h2 with h | h
  · exact Or.inl h
  · exact Or.inr (List.mem_of_mem_filter h)

theorem eq_of_mem_ids_nodup {l : List Node} (hnd : (idsOf l).Nodup) {m m2 : Node}
    (hm : m ∈ l) (hm2 : m2 ∈ l) (heq : m.id = m2.id) : m = m2 :=
  List.inj_on_of_nodup_map (by simpa [idsOf] using hnd) hm hm2 heq

/-- In a container with unique ids that holds the placeholder node, no
draggable child carries the placeholder's id. -/
theorem draggable_ne_pid {l : List Node} {pid : Nat} (hnd : (idsOf l).Nodup)
    (hph : phNode pid ∈ l) : ∀ m ∈ l, m.draggable = true → m.id ≠ pid := by
  intro m hm hd hid
  have heq : m = phNode pid :=
    eq_of_mem_ids_nodup hnd hm hph (by simpa [phNode] using hid)
  rw [heq] at hd
  simp [phNode] at hd

/-- The placeholder-repositioning step of `updateDragPosition` (guarded by
`placeholder.parentElement && draggedElement.nextSibling !== placeholder`)
coincides with "reposition the placeholder to immediately follow the dragged
item unless it is already there", and afterwards the placeholder is the
dragged item's next sibling. -/
theorem place_ph_step (c1 : List Node) (dn : Node) (pid : Nat)
    (hnd : (idsOf c1).Nodup) (hdm : dn.id ∈ idsOf c1) (hne : pid ≠ dn.id)
    (hph : phNode pid ∈ c1) :
    ((if (c1.any (fun n => n.id = pid)) ∧ nextSiblingId c1 dn.id ≠ some pid then
        domInsertBefore c1 (phNode pid) (nextSiblingId c1 dn.id)
      else c1) =
      (if nextSiblingId c1 dn.id = some pid then c1
        else domInsertBefore c1 (phNode pid) (nextSiblingId c1 dn.id))) ∧
    nextSiblingId (if (c1.any (fun n => n.id = pid)) ∧
          nextSiblingId c1 dn.id ≠ some pid then
        domInsertBefore c1 (phNode pid) (nextSiblingId c1 dn.id)
      else c1) dn.id = some pid := by
  have hany : c1.any (fun n => n.id = pid) = true := by
    rw [List.any_eq_true]
    exact ⟨phNode pid, hph, by simp [phNode]⟩
  by_cases hcase : nextSiblingId c1 dn.id = some pid
  · rw [if_neg (by rintro ⟨-, hq⟩; exact hq hcase), if_pos hcase]
    exact ⟨rfl, hcase⟩
  · rw [if_pos ⟨hany, hcase⟩, if_neg hcase]
    exact ⟨rfl, nextSiblingId_place_ph hnd hdm hne hph⟩

theorem insertBeforeId_append_first {l1 l2 : List Node} {f n : Node}
    (hnot : f.id ∉ idsOf l1) :
    insertBeforeId (l1 ++ f :: l2) n f.id = l1 ++ n :: f :: l2 := by
  induction l1 with
  | nil => simp [insertBeforeId]
  | cons x xs ih =>
    have hx : ¬x.id = f.id := by
      intro h
      exact hnot (mem_idsOf_cons.mpr (Or.inl h.symm))
    have ih2 := ih (fun h => hnot (mem_idsOf_cons.mpr (Or.inr h)))
    show insertBeforeId (x :: (xs ++ f :: l2)) n f.id = x :: (xs ++ n :: f :: l2)
    simp only [insertBeforeId, if_neg hx, ih2]

theorem idxOf_append_last {L : List Node} {n : Node} (h : n.id ∉ idsOf L) :
    idxOf (L ++ [n]) n.id = (L.length : Int) := by
  induction L with
  | nil => simp [idxOf]
  | cons x xs ih =>
    have hx : ¬x.id = n.id := by
      intro hc
      exact h (mem_idsOf_cons.mpr (Or.inl hc.symm))
    have ih2 := ih (fun hc => h (mem_idsOf_cons.mpr (Or.inr hc)))
    have hnn : idxOf (xs ++ [n]) n.id ≠ -1 := by
      rw [ih2]
      omega
    show idxOf (x :: (xs ++ [n])) n.id = ((x :: xs).length : Int)
    simp only [idxOf, if_neg hx, if_neg hnn, ih2, List.length_cons]
    push_cast
    ring

/-- A drag-phase move event only rewrites the container's child order. -/
theorem step_dmove_eq (s : DndState) (x y : ℚ) (hb : Bool) (hit : Option Nat)
    (r : Nat → Rect) :
    ∃ c, step s (Ev.dmove x y hb hit r) = { s with children := c } := by
  simp only [step, handlePointerMove]
  split
  · split
    · split
      · split
        · exact ⟨_, rfl⟩
        · exact ⟨s.children, rfl⟩
      · exact ⟨s.children, rfl⟩
    · exact ⟨s.children, rfl⟩
  · exact ⟨s.children, rfl⟩

theorem applyDmoves_eq (s : DndState) (ms : List DM) :
    ∃ c, applyDmoves s ms = { s with children := c } := by
  induction ms generalizing s with
  | nil => exact ⟨s.children, rfl⟩
  | cons m ms ih =>
    rcases step_dmove_eq s m.x m.y m.horizontal m.hit m.rect with ⟨c1, hc1⟩
    rcases ih { s with children := c1 } with ⟨c2, hc2⟩
    refine ⟨c2, ?_⟩
    simp only [applyDmoves, List.foldl_cons] at hc2 ⊢
    rw [hc1, hc2]

/-- A pending-phase move on a state with no pending gesture is a no-op. -/
theorem pmove_pending_none {s : DndState} (h : s.pending = none) (x y now : ℚ) :
    step s (Ev.pmove x y now) = s := by
  simp [step, handleMove, h]

theorem foldl_pmove_none {s : DndState} (h : s.pending = none)
    (ms : List (ℚ × ℚ × ℚ)) :
    ms.foldl (fun t m => step t (Ev.pmove m.1 m.2.1 m.2.2)) s = s := by
  induction ms with
  | nil => rfl
  | cons m ms ih => simp only [List.foldl_cons, pmove_pending_none h, ih]

theorem quiet_down {s0 : DndState} {e : DownInfo} {D : List (Int × Int)}
    (h0 : s0.isDragging = false) (hgl : s0.globalListeners = false)
    (hpend : s0.pending = none) (hD : s0.drops = D) :
    QuietPending e D (step s0 (Ev.down e)) := by
  have hbase : QuietPending e D s0 :=
    ⟨h0, hgl, hD, fun g hg => by rw [hpend] at hg; cases hg⟩
  simp only [step, handlePointerDown]
  split
  · exact hbase
  · split
    · exact hbase
    · split
      · exact hbase
      · split
        · exact hbase
        · refine ⟨h0, hgl, hD, ?_⟩
          intro g hg
          simp only [Option.some.injEq] at hg
          subst hg
          exact ⟨rfl, rfl, rfl, rfl, rfl⟩

theorem quiet_pmove {e : DownInfo} {D : List (Int × Int)} {t : DndState}
    (hq : QuietPending e D t) {x y now : ℚ}
    (hsmall : max |y - e.y| |x - e.x| < dragThreshold e.isTouch e.isScrollable) :
    QuietPending e D (step t (Ev.pmove x y now)) := by
  obtain ⟨h0, hgl, hD, hg⟩ := hq
  cases hp : t.pending with
  | none => rw [pmove_pending_none hp]; exact ⟨h0, hgl, hD, hg⟩
  | some g =>
    obtain ⟨hsx, hsy, hti, hsc, hth⟩ := hg g hp
    have hlt : max |y - g.startY| |x - g.startX| < g.threshold := by
      rw [hsx, hsy, hth]; exact hsmall
    simp only [step, handleMove, hp]
    by_cases htouch : g.isTouch = true ∧ g.isScrollable = true
    · rw [if_pos htouch]
      by_cases habandon : |y - g.startY| > |x - g.startX| * (3 / 2)
      · rw [if_pos habandon]
        exact ⟨h0, hgl, hD, fun g2 hg2 => by cases hg2⟩
      · rw [if_neg habandon, if_pos (Or.inl hlt)]
        exact ⟨h0, hgl, hD, hg⟩
    · rw [if_neg htouch, if_pos hlt]
      exact ⟨h0, hgl, hD, hg⟩

theorem quiet_run {e : DownInfo} {D : List (Int × Int)} :
    ∀ (ms : List (ℚ × ℚ × ℚ)) (t : DndState), QuietPending e D t →
      (∀ m ∈ ms,
        max |m.2.1 - e.y| |m.1 - e.x| < dragThreshold e.isTouch e.isScrollable) →
      QuietPending e D (run t (ms.map fun m => Ev.pmove m.1 m.2.1 m.2.2))
  | [], _, hq, _ => hq
  | m :: ms, t, hq, hs =>
    quiet_run ms (step t (Ev.pmove m.1 m.2.1 m.2.2))
      (quiet_pmove hq (hs m (List.mem_cons_self m ms)))
      (fun m2 hm2 => hs m2 (List.mem_cons_of_mem m hm2))

/-! ### Claim C2 -/

/-- C2, counterexample: a pending touch gesture on a scrollable container,
after a purely horizontal 25 px move (at least 21 px = 70 % of the 30 px
threshold) with 250 ms elapsed, is NOT promoted to a drag, contrary to the
claim: the guard `moveDistance < dragThreshold || (moveDistance <
dragThreshold * 0.7 && elapsedTime < 200)` returns whenever the distance is
below 30 px, so the 70 %-and-200 ms disjunct never enables a promotion. -/
theorem touch_scroll_time_clause_cex :
    (21 : ℚ) ≤ max |(0 : ℚ) - 0| |(25 : ℚ) - 0| ∧
    (200 : ℚ) ≤ 250 - 0 ∧
    ¬(|(0 : ℚ) - 0| > |(25 : ℚ) - 0| * (3 / 2)) ∧
    touchPending.pending = some touchGesture ∧
    touchPending.isDragging = false ∧
    (step touchPending (Ev.pmove 25 0 250)).isDragging = false ∧
    (step touchPending (Ev.pmove 25 0 250)).pending = some touchGesture := by
  have hpend : touchPending.pending = some touchGesture := by
    norm_num [touchPending, touchGesture, touchDown, twoItems, run, step, initSt,
      handlePointerDown, dragThreshold, List.find?]
  have hdrag : touchPending.isDragging = false := by
    norm_num [touchPending, touchDown, twoItems, run, step, initSt,
      handlePointerDown, List.find?]
  refine ⟨by norm_num, by norm_num, by norm_num, hpend, hdrag, ?_, ?_⟩ <;>
    norm_num [step, handleMove, hpend, touchGesture, hdrag]

/-- C2 (amended): for a pending touch gesture on a scrollable container that
is not abandoned as a scroll, a move promotes the gesture to a drag exactly
when the move distance (max of the absolute deltas) reaches 30 px; the
"70 % of the threshold and at least 200 ms" clause never enables a
promotion below 30 px, and the elapsed time has no influence. -/
theorem touch_scroll_promotion_iff (s : DndState) (g : Gesture) (x y now : ℚ)
    (hp : s.pending = some g) (ht : g.isTouch = true) (hsc : g.isScrollable = true)
    (hth : g.threshold = dragThreshold true true)
    (hscroll : ¬(|y - g.startY| > |x - g.startX| * (3 / 2))) :
    (step s (Ev.pmove x y now)).pending = none ↔
      30 ≤ max |y - g.startY| |x - g.startX| := by
  have h30 : g.threshold = 30 := by rw [hth]; norm_num [dragThreshold]
  have h21 : g.threshold * (7 / 10) = 21 := by rw [h30]; norm_num
  simp only [step, handleMove, hp]
  rw [if_pos ⟨ht, hsc⟩, if_neg hscroll, h21, h30]
  by_cases hlt : max |y - g.startY| |x - g.startX| < 30
  · rw [if_pos (Or.inl hlt)]
    simp only [hp]
    constructor
    · intro h; cases h
    · intro h; exact absurd h (by linarith)
  · have hcond : ¬(max |y - g.startY| |x - g.startX| < 30 ∨
        (max |y - g.startY| |x - g.startX| < 21 ∧ now - g.startTime < 200)) := by
      rintro (h | ⟨h, -⟩)
      · exact hlt h
      · exact hlt (by linarith)
    rw [if_neg hcond]
    simpa using not_lt.mp hlt

/-- Witness for the amended C2 at a concrete input: a 31 px horizontal move
on the concrete pending touch gesture promotes it. -/
theorem touch_scroll_promotion_iff_app :
    (step { initSt twoItems ⟨false, false⟩ with pending := some touchGesture }
      (Ev.pmove 31 0 500)).pending = none := by
  have h := touch_scroll_promotion_iff
    { initSt twoItems ⟨false, false⟩ with pending := some touchGesture }
    touchGesture 31 0 500 rfl rfl rfl (by norm_num [touchGesture, dragThreshold])
    (by norm_num [touchGesture])
  rw [h]
  norm_num [touchGesture]

/-! ### Claim C4 -/

/-- C4: for a pending touch gesture on a scrollable container, a move whose
vertical displacement exceeds 1.5 times its horizontal displacement abandons
the gesture permanently: `pendingDrag` is cleared (with its move/up
listeners), no drag has started, and every later move of that gesture is a
no-op, so it can never promote to a drag. -/
theorem scroll_abandon_permanent (s : DndState) (g : Gesture) (x y now : ℚ)
    (hp : s.pending = some g) (ht : g.isTouch = true) (hsc : g.isScrollable = true)
    (hd : s.isDragging = false)
    (hscroll : |y - g.startY| > |x - g.startX| * (3 / 2)) :
    (step s (Ev.pmove x y now)).pending = none ∧
    (step s (Ev.pmove x y now)).isDragging = false ∧
    ∀ ms : List (ℚ × ℚ × ℚ),
      ms.foldl (fun t m => step t (Ev.pmove m.1 m.2.1 m.2.2))
        (step s (Ev.pmove x y now)) = step s (Ev.pmove x y now) := by
  have habandon : step s (Ev.pmove x y now) = { s with pending := none } := by
    simp only [step, handleMove, hp]
    rw [if_pos ⟨ht, hsc⟩, if_pos hscroll]
  rw [habandon]
  exact ⟨rfl, hd, fun ms => foldl_pmove_none rfl ms⟩

/-- Witness for C4 at a concrete input: a 0 px-horizontal, 100 px-vertical
move abandons the concrete pending touch gesture, and two later large moves
do not revive it. -/
theorem scroll_abandon_permanent_app :
    (step { initSt twoItems ⟨false, false⟩ with pending := some touchGesture }
      (Ev.pmove 0 100 10)).pending = none ∧
    ([((200 : ℚ), (0 : ℚ), (300 : ℚ)), ((400 : ℚ), (0 : ℚ), (600 : ℚ))].foldl
      (fun t m => step t (Ev.pmove m.1 m.2.1 m.2.2))
      (step { initSt twoItems ⟨false, false⟩ with pending := some touchGesture }
        (Ev.pmove 0 100 10))) =
      step { initSt twoItems ⟨false, false⟩ with pending := some touchGesture }
        (Ev.pmove 0 100 10) := by
  have h := scroll_abandon_permanent
    { initSt twoItems ⟨false, false⟩ with pending := some touchGesture }
    touchGesture 0 100 10 rfl rfl rfl rfl (by norm_num [touchGesture])
  exact ⟨h.1, h.2.2 _⟩

/-! ### Claim C5 -/

/-- C5: a pointer-down followed only by moves whose move distance stays
strictly below the applicable threshold (`dragThreshold`: 8 px non-touch,
20 px touch non-scrollable, 30 px touch scrollable) and then pointer-up
never starts a drag at any intermediate point and never invokes `onDrop`;
no condition on the move times is required. -/
theorem below_threshold_no_drag (s0 : DndState) (e : DownInfo)
    (ms : List (ℚ × ℚ × ℚ))
    (h0 : s0.isDragging = false) (hgl : s0.globalListeners = false)
    (hpend : s0.pending = none)
    (hsmall : ∀ m ∈ ms,
      max |m.2.1 - e.y| |m.1 - e.x| < dragThreshold e.isTouch e.isScrollable) :
    (∀ k, (run (step s0 (Ev.down e))
      ((ms.take k).map fun m => Ev.pmove m.1 m.2.1 m.2.2)).isDragging = false) ∧
    (step (run (step s0 (Ev.down e)) (ms.map fun m => Ev.pmove m.1 m.2.1 m.2.2))
      Ev.pup).isDragging = false ∧
    (step (run (step s0 (Ev.down e)) (ms.map fun m => Ev.pmove m.1 m.2.1 m.2.2))
      Ev.pup).drops = s0.drops := by
  have hdown : QuietPending e s0.drops (step s0 (Ev.down e)) :=
    quiet_down h0 hgl hpend rfl
  have hfull : QuietPending e s0.drops
      (run (step s0 (Ev.down e)) (ms.map fun m => Ev.pmove m.1 m.2.1 m.2.2)) :=
    quiet_run ms _ hdown hsmall
  obtain ⟨hf0, -, hfD, -⟩ := hfull
  refine ⟨?_, ?_, ?_⟩
  · intro k
    exact (quiet_run (ms.take k) _ hdown
      (fun m hm => hsmall m (List.take_subset k ms hm))).1
  · simp only [step]
    split
    · exact hf0
    · exact hf0
  · simp only [step]
    split
    · exact hfD
    · exact hfD

/-! ### Claim C9 -/

/-- C9: a pointer-down whose target is (or is inside) an interactive
control — the `closest` lookup for
`button, input, select, textarea, a, [role="button"]` finds `i` — where `i`
is not itself inside a draggable item (no element of `i`'s inclusive
ancestor chain has `data-draggable`), is ignored: the handler leaves the
controller state unchanged, so no pending gesture is created and no drag can
start from it. -/
theorem interactive_control_ignored (s : DndState) (e : DownInfo)
    (i : Anc) (pre suf : List Anc)
    (hdis : s.opts.disabled = false) (hdr : s.isDragging = false)
    (hchain : e.chain = pre ++ i :: suf)
    (hclosest : e.chain.find? (·.interactive) = some i)
    (hnodrag : ∀ a ∈ i :: suf, a.draggable = false) :
    step s (Ev.down e) = s := by
  have hguard1 : ¬(s.opts.disabled = true ∨ s.isDragging = true) := by
    rintro (h | h)
    · rw [hdis] at h; cases h
    · rw [hdr] at h; cases h
  have hsuffix : (i :: suf).find? (·.draggable) = none := by
    rw [List.find?_eq_none]
    intro a ha
    simp [hnodrag a ha]
  have hne : e.chain.find? (·.interactive) ≠ e.chain.find? (·.draggable) := by
    rw [hclosest, hchain, List.find?_append, hsuffix]
    cases hpre : pre.find? (·.draggable) with
    | none => simp
    | some dd =>
      have hdd : dd.draggable = true := by simpa using List.find?_some hpre
      have hi2 : i.draggable = false := hnodrag i (List.mem_cons_self i suf)
      intro hcontra
      have hieq : i = dd := by simpa using hcontra
      rw [hieq, hdd] at hi2
      cases hi2
  simp only [step, handlePointerDown]
  rw [if_neg hguard1, if_pos ⟨by rw [hclosest]; simp, hne⟩]

/-- Witness for C9 at a concrete input: a pointer-down on a bare button
outside any draggable item leaves the initial controller state unchanged. -/
theorem interactive_control_ignored_app :
    step (initSt twoItems ⟨false, false⟩) (Ev.down interactiveDown) =
      initSt twoItems ⟨false, false⟩ :=
  interactive_control_ignored (initSt twoItems ⟨false, false⟩) interactiveDown
    ⟨5, true, false⟩ [] [⟨6, false, false⟩] rfl rfl rfl (by decide)
    (by decide)

/-! ### Session-end helper lemmas -/

/-- What `cleanup()` guarantees for a well-formed active session: ghost and
placeholder nodes gone, the dragged item's styling reset, session flags
cleared — and the `onDrop` log and the drag-phase document listeners left
untouched. -/
theorem cleanup_spec (s : DndState) (dn : Node) (p : Nat)
    (hg : s.ghostVar = true) (hgd : s.ghostDoc = 1)
    (hpv : s.placeholderVar = some p) (hdn : s.draggedNode = some dn)
    (hall : ∀ n ∈ s.children, n.ph = true → n.id = p) :
    (cleanup s).ghostDoc = 0 ∧
    (cleanup s).children.countP (·.ph) = 0 ∧
    (cleanup s).style dn.id = defaultStyle ∧
    (cleanup s).drops = s.drops ∧
    (cleanup s).globalListeners = s.globalListeners ∧
    (cleanup s).isDragging = false ∧
    (cleanup s).pending = none := by
  have hcount0 : (s.children.filter (fun n => ¬(n.ph ∧ n.id = p))).countP (·.ph) = 0 := by
    rw [List.countP_eq_zero]
    intro n hn
    rcases List.mem_filter.mp hn with ⟨hmem, hpred⟩
    simp only [decide_eq_true_eq] at hpred
    intro hph
    exact hpred ⟨by simpa using hph, hall n hmem (by simpa using hph)⟩
  have hclean : cleanup s = { s with
      pending := none
      ghostVar := false
      ghostDoc := s.ghostDoc - 1
      children := s.children.filter (fun n => ¬(n.ph ∧ n.id = p))
      placeholderVar := none
      style := fun i => if i = dn.id then defaultStyle else s.style i
      draggedNode := none
      isDragging := false
      draggedIndex := -1
      hasMoved := false } := by
    unfold cleanup
    simp only [hg, hpv, hdn, eq_self_iff_true, if_true]
  rw [hclean]
  refine ⟨by rw [hgd], ?_, by simp, rfl, rfl, rfl, rfl⟩
  simpa using hcount0

theorem cleanup_drops (s : DndState) : (cleanup s).drops = s.drops := by
  simp only [cleanup]
  split <;> split <;> split <;> rfl

theorem cleanup_globalListeners (s : DndState) :
    (cleanup s).globalListeners = s.globalListeners := by
  simp only [cleanup]
  split <;> split <;> split <;> rfl

/-- What `startDrag` does when the item is among the draggable children. -/
theorem startDrag_spec (s0 : DndState) (d : Nat) (h0 : s0.isDragging = false)
    (hi : idxOf (draggableItems s0.children) d ≠ -1) :
    ∃ dn, s0.children.find? (fun n => n.id = d) = some dn ∧ dn.id = d ∧
      startDrag s0 d = { s0 with
        isDragging := true
        draggedNode := some dn
        draggedIndex := idxOf (draggableItems s0.children) d
        ghostVar := true
        ghostDoc := s0.ghostDoc + 1
        placeholderVar := some (freshId s0.children)
        children := domInsertBefore s0.children (phNode (freshId s0.children))
          (nextSiblingId s0.children d)
        style := fun i => if i = d then dragStyle else s0.style i
        globalListeners := true } := by
  have hmem : d ∈ idsOf s0.children := by
    have h1 : d ∈ idsOf (draggableItems s0.children) := (idxOf_ne_neg_one_iff _ _).mp hi
    rcases mem_idsOf.mp h1 with ⟨n, hn, hid⟩
    exact mem_idsOf.mpr ⟨n, List.mem_of_mem_filter hn, hid⟩
  rcases find?_id_mem hmem with ⟨dn, hfind, hid⟩
  refine ⟨dn, hfind, hid, ?_⟩
  simp [startDrag, h0, hi, hfind]

/-! ### Claim C1 -/

/-- C1: for a drag session started on item `d` (recording its index `i` in
the pre-drag draggable-only ordering), followed by any sequence of
drag-phase position updates, the pointer-up handler invokes `onDrop` exactly
when the item's final index `j` among the draggable children differs from
`i`, and then with exactly the pair `(i, j)`; releasing at the original
index appends no call. -/
theorem drop_iff_index_changed (s0 : DndState) (d : Nat) (ms : List DM)
    (h0 : s0.isDragging = false)
    (hi : idxOf (draggableItems s0.children) d ≠ -1)
    (hj : idxOf (draggableItems (applyDmoves (startDrag s0 d) ms).children) d ≠ -1) :
    (step (applyDmoves (startDrag s0 d) ms) Ev.dup).drops =
      s0.drops ++
        (if idxOf (draggableItems (applyDmoves (startDrag s0 d) ms).children) d =
            idxOf (draggableItems s0.children) d then []
          else [(idxOf (draggableItems s0.children) d,
            idxOf (draggableItems (applyDmoves (startDrag s0 d) ms).children) d)]) := by
  rcases startDrag_spec s0 d h0 hi with ⟨dn, hfind, hid, hsd⟩
  rcases applyDmoves_eq (startDrag s0 d) ms with ⟨c2, hc2⟩
  set sf := applyDmoves (startDrag s0 d) ms with hsf
  have hgl : sf.globalListeners = true := by rw [hc2, hsd]
  have hdr : sf.isDragging = true := by rw [hc2, hsd]
  have hdnf : sf.draggedNode = some dn := by rw [hc2, hsd]
  have hdi : sf.draggedIndex = idxOf (draggableItems s0.children) d := by
    rw [hc2, hsd]
  have hdrops : sf.drops = s0.drops := by rw [hc2, hsd]
  have hmain : step sf Ev.dup =
      { cleanup (if sf.draggedNode.isSome ∧
            idxOf (draggableItems sf.children) d ≠ -1 ∧
            idxOf (draggableItems sf.children) d ≠ sf.draggedIndex then
          { sf with drops := sf.drops ++
            [(sf.draggedIndex, idxOf (draggableItems sf.children) d)] }
        else sf) with globalListeners := false } := by
    simp [step, handlePointerUp, hgl, hdr, hdnf, hid]
  by_cases hji :
      idxOf (draggableItems sf.children) d = idxOf (draggableItems s0.children) d
  · rw [hmain, if_neg (by rw [hdi]; rintro ⟨-, -, hcc⟩; exact hcc hji)]
    simp [cleanup_drops, hdrops, hji]
  · rw [hmain, if_pos ⟨by simp [hdnf], hj, by rw [hdi]; exact hji⟩]
    simp [cleanup_drops, hdrops, hdi, hji]

/-- Witness for C1 at a concrete input: starting a drag on item 2 of three
draggable items and releasing without any reordering move leaves the
`onDrop` log empty. -/
theorem drop_iff_index_changed_app :
    (step (applyDmoves (startDrag (initSt threeItems ⟨false, false⟩) 2) []) Ev.dup).drops
      = [] := by
  have h := drop_iff_index_changed (initSt threeItems ⟨false, false⟩) 2 []
    rfl (by decide) (by decide)
  simpa using h

/-! ### Claim C10 -/

/-- C10: if at pointer-up the dragged element is no longer among the
container's draggable children (its index is -1), `onDrop` is not invoked at
all, while the cleanup of ghost, placeholder, styling and the global
listeners still runs. -/
theorem missing_item_no_drop (s : DndState) (dn : Node) (p : Nat)
    (hgl : s.globalListeners = true) (hdr : s.isDragging = true)
    (hdn : s.draggedNode = some dn)
    (hmiss : idxOf (draggableItems s.children) dn.id = -1)
    (hg : s.ghostVar = true) (hgd : s.ghostDoc = 1)
    (hpv : s.placeholderVar = some p)
    (hall : ∀ n ∈ s.children, n.ph = true → n.id = p) :
    (step s Ev.dup).drops = s.drops ∧
    (step s Ev.dup).ghostDoc = 0 ∧
    (step s Ev.dup).children.countP (·.ph) = 0 ∧
    (step s Ev.dup).style dn.id = defaultStyle ∧
    (step s Ev.dup).globalListeners = false := by
  have hmain : step s Ev.dup = { cleanup s with globalListeners := false } := by
    simp [step, handlePointerUp, hgl, hdr, hdn, hmiss]
  obtain ⟨hc1, hc2, hc3, hc4, -, -, -⟩ := cleanup_spec s dn p hg hgd hpv hdn hall
  rw [hmain]
  exact ⟨hc4, hc1, hc2, hc3, rfl⟩

/-! ### Claim C3 -/

/-- C3 (amended): ending a session by pointer-up or pointer-cancel leaves
zero ghost and zero placeholder nodes, resets the dragged item's inline
styles and `dragging` class to the controller's default (empty) values, and
detaches the drag-phase document listeners.  Ending it by reconfiguring to
`disabled` while dragging also removes ghost and placeholder, resets the
styling and adds no `onDrop` call, but the drag-phase document
`pointermove`/`pointerup`/`pointercancel` listeners remain attached (they
are removed only by a pointer-up or by `destroy`), merely becoming inert. -/
theorem cleanup_after_session_end (s : DndState) (dn : Node) (p : Nat) (hb : Bool)
    (hgl : s.globalListeners = true) (hdr : s.isDragging = true)
    (hdn : s.draggedNode = some dn) (hg : s.ghostVar = true) (hgd : s.ghostDoc = 1)
    (hpv : s.placeholderVar = some p)
    (hall : ∀ n ∈ s.children, n.ph = true → n.id = p) :
    ((step s Ev.dup).ghostDoc = 0 ∧
      (step s Ev.dup).children.countP (·.ph) = 0 ∧
      (step s Ev.dup).style dn.id = defaultStyle ∧
      (step s Ev.dup).globalListeners = false) ∧
    ((step s (Ev.reconfig ⟨true, hb⟩)).ghostDoc = 0 ∧
      (step s (Ev.reconfig ⟨true, hb⟩)).children.countP (·.ph) = 0 ∧
      (step s (Ev.reconfig ⟨true, hb⟩)).style dn.id = defaultStyle ∧
      (step s (Ev.reconfig ⟨true, hb⟩)).drops = s.drops ∧
      (step s (Ev.reconfig ⟨true, hb⟩)).globalListeners = true) := by
  constructor
  · have hup : step s Ev.dup = { cleanup (if s.draggedNode.isSome ∧
        idxOf (draggableItems s.children) (match s.draggedNode with
          | some dn2 => dn2.id
          | none => 0) ≠ -1 ∧
        idxOf (draggableItems s.children) (match s.draggedNode with
          | some dn2 => dn2.id
          | none => 0) ≠ s.draggedIndex then
          { s with drops := s.drops ++ [(s.draggedIndex,
              idxOf (draggableItems s.children) (match s.draggedNode with
                | some dn2 => dn2.id
                | none => 0))] }
        else s) with globalListeners := false } := by
      simp [step, handlePointerUp, hgl, hdr, hdn]
    rw [hup]
    split
    · obtain ⟨hc1, hc2, hc3, -, -, -, -⟩ :=
        cleanup_spec { s with drops := s.drops ++ [(s.draggedIndex,
          idxOf (draggableItems s.children) (match s.draggedNode with
            | some dn2 => dn2.id
            | none => 0))] } dn p hg hgd hpv hdn hall
      exact ⟨hc1, hc2, hc3, rfl⟩
    · obtain ⟨hc1, hc2, hc3, -, -, -, -⟩ := cleanup_spec s dn p hg hgd hpv hdn hall
      exact ⟨hc1, hc2, hc3, rfl⟩
  · have hre : step s (Ev.reconfig ⟨true, hb⟩) = cleanup { s with opts := ⟨true, hb⟩ } := by
      simp [step, hdr]
    obtain ⟨hc1, hc2, hc3, hc4, hc5, -, -⟩ :=
      cleanup_spec { s with opts := ⟨true, hb⟩ } dn p hg hgd hpv hdn hall
    rw [hre]
    exact ⟨hc1, hc2, hc3, hc4, by rw [hc5]; exact hgl⟩

/-! ### Claim C6 -/

/-- C6: during a drag, a position update whose hit-test finds a hovered
draggable item `hv` distinct from the dragged item and the placeholder, both
present at distinct indices among the draggable siblings, behaves as the
specification describes (`claimHoverResult`): pointer on the before side of
the hovered item's midpoint (x against the horizontal midpoint in horizontal
layout, y against the vertical midpoint in vertical layout) inserts the
dragged item before the hovered item; the after side inserts it before the
hovered item's next sibling, appending at the end when there is none; the
placeholder is then repositioned to immediately follow the dragged item if
not already there — and indeed it ends up as the dragged item's next
sibling. -/
theorem hover_insertion_sides (l : List Node) (dn : Node) (pid hv : Nat)
    (x y : ℚ) (rect : Nat → Rect) (horizontal : Bool)
    (hnd : (idsOf l).Nodup)
    (hdn : dn ∈ l) (hdrag : dn.draggable = true)
    (hph : phNode pid ∈ l)
    (hne1 : hv ≠ dn.id) (hne2 : hv ≠ pid) (hne3 : dn.id ≠ pid)
    (hhv : idxOf (draggableItems l) hv ≠ -1)
    (hdi : idxOf (draggableItems l) hv ≠ idxOf (draggableItems l) dn.id) :
    updateChildren l dn pid x y rect horizontal (some hv) =
      claimHoverResult l dn pid hv x y rect horizontal ∧
    nextSiblingId (updateChildren l dn pid x y rect horizontal (some hv)) dn.id
      = some pid := by
  have hdix : idxOf (draggableItems l) dn.id ≠ -1 := by
    rw [idxOf_ne_neg_one_iff]
    exact mem_idsOf.mpr ⟨dn, List.mem_filter.mpr ⟨hdn, by simp [hdrag]⟩, rfl⟩
  have hpn : pid ≠ dn.id := fun h => hne3 h.symm
  have hfacts : ∀ ref : Option Nat,
      (idsOf (domInsertBefore l dn ref)).Nodup ∧
      dn.id ∈ idsOf (domInsertBefore l dn ref) ∧
      phNode pid ∈ domInsertBefore l dn ref := by
    intro ref
    refine ⟨nodup_ids_domInsertBefore hnd dn ref, ?_, ?_⟩
    · exact mem_idsOf.mpr ⟨dn, self_mem_domInsertBefore l dn ref, rfl⟩
    · exact mem_domInsertBefore_of ref hph (by simpa [phNode] using hpn)
  by_cases hbef : (if horizontal then x < (rect hv).left + (rect hv).width / 2
      else y < (rect hv).top + (rect hv).height / 2)
  · simp only [updateChildren, claimHoverResult, if_pos (And.intro hne1 hne2),
      if_pos (And.intro hhv (And.intro hdix hdi)), if_pos hbef, if_pos hne1]
    obtain ⟨hn1, hn2, hn3⟩ := hfacts (some hv)
    exact place_ph_step _ dn pid hn1 hn2 hpn hn3
  · cases hns : nextSiblingId l hv with
    | none =>
      simp only [updateChildren, claimHoverResult, if_pos (And.intro hne1 hne2),
        if_pos (And.intro hhv (And.intro hdix hdi)), if_neg hbef, hns]
      obtain ⟨hn1, hn2, hn3⟩ := hfacts none
      exact place_ph_step _ dn pid hn1 hn2 hpn hn3
    | some r =>
      by_cases hr : r = dn.id
      · simp only [updateChildren, claimHoverResult, if_pos (And.intro hne1 hne2),
          if_pos (And.intro hhv (And.intro hdix hdi)), if_neg hbef, hns,
          if_neg (not_not_intro hr), if_pos hr]
        exact place_ph_step l dn pid hnd (mem_idsOf.mpr ⟨dn, hdn, rfl⟩) hpn hph
      · simp only [updateChildren, claimHoverResult, if_pos (And.intro hne1 hne2),
          if_pos (And.intro hhv (And.intro hdix hdi)), if_neg hbef, hns,
          if_pos hr, if_neg hr]
        obtain ⟨hn1, hn2, hn3⟩ := hfacts (some r)
        exact place_ph_step _ dn pid hn1 hn2 hpn hn3

/-- Witness for C6 at a concrete input: hovering item 3 from above its
midpoint while dragging item 1 leaves the placeholder right after item 1. -/
theorem hover_insertion_sides_app :
    nextSiblingId (updateChildren
      [⟨1, true, false⟩, ⟨4, false, true⟩, ⟨2, true, false⟩, ⟨3, true, false⟩]
      ⟨1, true, false⟩ 4 0 45
      (fun i => if i = 1 then ⟨0, 0, 50, 20⟩ else if i = 2 then ⟨0, 20, 50, 20⟩
        else ⟨0, 40, 50, 20⟩)
      false (some 3)) 1 = some 4 :=
  (hover_insertion_sides
    [⟨1, true, false⟩, ⟨4, false, true⟩, ⟨2, true, false⟩, ⟨3, true, false⟩]
    ⟨1, true, false⟩ 4 3 0 45
    (fun i => if i = 1 then ⟨0, 0, 50, 20⟩ else if i = 2 then ⟨0, 20, 50, 20⟩
      else ⟨0, 40, 50, 20⟩)
    false (by decide) (by decide) (by decide) (by decide) (by decide) (by decide)
    (by decide) (by decide) (by decide)).2

/-! ### Claim C7 -/

theorem draggable_ne_pid_c1 {l : List Node} {dn : Node} {pid : Nat}
    (ref : Option Nat) (hnd : (idsOf l).Nodup) (hph : phNode pid ∈ l)
    (hdp : dn.id ≠ pid) :
    ∀ m ∈ domInsertBefore l dn ref, m.draggable = true → m.id ≠ pid := by
  intro m hm hd
  rcases mem_of_mem_domInsertBefore hm with h | h
  · rw [h]; exact hdp
  · exact draggable_ne_pid hnd hph m h hd

/-- Inserting the dragged item before the first draggable item makes it the
first draggable item. -/
theorem draggableItems_front (l : List Node) (dn : Node) (f : Node) (fs : List Node)
    (hnd : (idsOf l).Nodup) (hdn : dn ∈ l) (hdrag : dn.draggable = true)
    (hitems : draggableItems l = f :: fs) :
    ∃ rest, draggableItems (domInsertBefore l dn (some f.id)) = dn :: rest := by
  by_cases hfd : f.id = dn.id
  · have hfmem : f ∈ draggableItems l := by
      rw [hitems]; exact List.mem_cons_self f fs
    have hfl : f ∈ l := List.mem_of_mem_filter hfmem
    have hfdn : f = dn := eq_of_mem_ids_nodup hnd hfl hdn hfd
    have hself : domInsertBefore l dn (some f.id) = l := by
      rw [show (some f.id) = (some dn.id) from by rw [hfd]]
      exact domInsertBefore_self hdn hnd
    rw [hself, hitems, hfdn]
    exact ⟨fs, rfl⟩
  · obtain ⟨l1, l2, hl, h1, hpf, h2⟩ := List.filter_eq_cons_iff.mp hitems
    have hdn2 : dn ∈ l2 := by
      have hdnl := hdn
      rw [hl] at hdnl
      rcases List.mem_append.mp hdnl with h | h
      · exact absurd hdrag (h1 dn h)
      · rcases List.mem_cons.mp h with h | h
        · exact absurd (congrArg Node.id h).symm hfd
        · exact h
    have hnotl1 : dn.id ∉ idsOf l1 := by
      intro hmem
      rcases mem_idsOf.mp hmem with ⟨m, hm, hid⟩
      have hmdn : m = dn :=
        eq_of_mem_ids_nodup hnd (by rw [hl]; exact List.mem_append_left _ hm) hdn hid
      rw [hmdn] at hm
      exact absurd hdrag (h1 dn hm)
    have hfl : f ∈ l := by
      rw [hl]; exact List.mem_append_right _ (List.mem_cons_self f l2)
    have hfnotl1 : f.id ∉ idsOf l1 := by
      intro hmem
      rcases mem_idsOf.mp hmem with ⟨m, hm, hid⟩
      have hmf : m = f :=
        eq_of_mem_ids_nodup hnd (by rw [hl]; exact List.mem_append_left _ hm) hfl hid
      rw [hmf] at hm
      exact absurd hpf (h1 f hm)
    have hfilterl1 : l1.filter (fun n => n.id ≠ dn.id) = l1 := by
      apply List.filter_eq_self.mpr
      intro a ha
      have hane : a.id ≠ dn.id := fun hc => hnotl1 (mem_idsOf.mpr ⟨a, ha, hc⟩)
      simpa using hane
    have hremeq : domRemove l dn.id = l1 ++ f :: domRemove l2 dn.id := by
      rw [hl]
      simp only [domRemove, List.filter_append, List.filter_cons]
      rw [hfilterl1]
      simp [hfd]
    have hfix : domInsertBefore l dn (some f.id) = l1 ++ dn :: f :: domRemove l2 dn.id := by
      unfold domInsertBefore
      rw [if_neg (show ¬(some f.id = some dn.id) from by simpa using hfd)]
      rw [hremeq]
      exact insertBeforeId_append_first hfnotl1
    refine ⟨f :: draggableItems (domRemove l2 dn.id), ?_⟩
    rw [hfix]
    simp only [draggableItems, List.filter_append, List.filter_cons]
    rw [List.filter_eq_nil_iff.mpr h1]
    simp [hdrag, hpf]

/-- Edge fallback, leading side: the dragged item ends at draggable index 0
and the placeholder follows it. -/
theorem edge_front (l : List Node) (dn : Node) (pid : Nat) (f : Node) (fs : List Node)
    (hnd : (idsOf l).Nodup) (hdn : dn ∈ l) (hdrag : dn.draggable = true)
    (hph : phNode pid ∈ l) (hdp : dn.id ≠ pid)
    (hitems : draggableItems l = f :: fs) :
    idxOf (draggableItems (domInsertBefore (domInsertBefore l dn (some f.id))
      (phNode pid) (nextSiblingId (domInsertBefore l dn (some f.id)) dn.id))) dn.id
      = 0 ∧
    nextSiblingId (domInsertBefore (domInsertBefore l dn (some f.id)) (phNode pid)
      (nextSiblingId (domInsertBefore l dn (some f.id)) dn.id)) dn.id = some pid := by
  have hpn : pid ≠ dn.id := fun h => hdp h.symm
  have hn1 : (idsOf (domInsertBefore l dn (some f.id))).Nodup :=
    nodup_ids_domInsertBefore hnd dn _
  have hn2 : dn.id ∈ idsOf (domInsertBefore l dn (some f.id)) :=
    mem_idsOf.mpr ⟨dn, self_mem_domInsertBefore l dn _, rfl⟩
  have hn3 : phNode pid ∈ domInsertBefore l dn (some f.id) :=
    mem_domInsertBefore_of _ hph (by simpa [phNode] using hpn)
  refine ⟨?_, nextSiblingId_place_ph hn1 hn2 hpn hn3⟩
  have hout : draggableItems (domInsertBefore (domInsertBefore l dn (some f.id))
      (phNode pid) (nextSiblingId (domInsertBefore l dn (some f.id)) dn.id))
      = draggableItems (domInsertBefore l dn (some f.id)) :=
    draggableItems_domInsertBefore_ph _ (draggable_ne_pid_c1 _ hnd hph hdp)
  rw [hout]
  rcases draggableItems_front l dn f fs hnd hdn hdrag hitems with ⟨rest, hrest⟩
  rw [hrest]
  simp [idxOf]

/-- Edge fallback, trailing side: the dragged item ends at the last
draggable index and the placeholder follows it. -/
theorem edge_end (l : List Node) (dn : Node) (pid : Nat)
    (hnd : (idsOf l).Nodup) (hdn : dn ∈ l) (hdrag : dn.draggable = true)
    (hph : phNode pid ∈ l) (hdp : dn.id ≠ pid) :
    idxOf (draggableItems (domInsertBefore (domAppend l dn) (phNode pid)
      (nextSiblingId (domAppend l dn) dn.id))) dn.id
      = ((draggableItems (domInsertBefore (domAppend l dn) (phNode pid)
          (nextSiblingId (domAppend l dn) dn.id))).length : Int) - 1 ∧
    nextSiblingId (domInsertBefore (domAppend l dn) (phNode pid)
      (nextSiblingId (domAppend l dn) dn.id)) dn.id = some pid := by
  have hpn : pid ≠ dn.id := fun h => hdp h.symm
  rw [domAppend_eq_insert_none l dn]
  have hn1 : (idsOf (domInsertBefore l dn none)).Nodup :=
    nodup_ids_domInsertBefore hnd dn none
  have hn2 : dn.id ∈ idsOf (domInsertBefore l dn none) :=
    mem_idsOf.mpr ⟨dn, self_mem_domInsertBefore l dn none, rfl⟩
  have hn3 : phNode pid ∈ domInsertBefore l dn none :=
    mem_domInsertBefore_of none hph (by simpa [phNode] using hpn)
  refine ⟨?_, nextSiblingId_place_ph hn1 hn2 hpn hn3⟩
  have hout : draggableItems (domInsertBefore (domInsertBefore l dn none)
      (phNode pid) (nextSiblingId (domInsertBefore l dn none) dn.id))
      = draggableItems (domInsertBefore l dn none) :=
    draggableItems_domInsertBefore_ph _ (draggable_ne_pid_c1 none hnd hph hdp)
  rw [hout]
  have hc1 : domInsertBefore l dn none = domRemove l dn.id ++ [dn] := rfl
  rw [hc1]
  have hfil : draggableItems (domRemove l dn.id ++ [dn])
      = draggableItems (domRemove l dn.id) ++ [dn] := by
    simp [draggableItems, List.filter_append, hdrag]
  rw [hfil]
  have hnot : dn.id ∉ idsOf (draggableItems (domRemove l dn.id)) := by
    intro hmem
    rcases mem_idsOf.mp hmem with ⟨m, hm, hid⟩
    exact not_mem_ids_domRemove l dn.id
      (mem_idsOf.mpr ⟨m, List.mem_of_mem_filter hm, hid⟩)
  rw [idxOf_append_last hnot]
  simp only [List.length_append, List.length_singleton]
  push_cast
  ring

/-- C7: during a drag, a position update whose hit-test finds no hovered
item falls back to the list edges: a pointer beyond the first draggable
item's leading edge moves the dragged item to the front (draggable index 0),
a pointer beyond the last item's trailing edge moves it to the end (last
draggable index), anything else leaves the order unchanged; the placeholder
follows the moved item.  In particular, dragging the item at index 1 of
three off the end of the list and releasing fires `onDrop` with `(1, 2)`. -/
theorem edge_fallback_moves :
    (∀ (l : List Node) (dn : Node) (pid : Nat) (x y : ℚ) (rect : Nat → Rect)
        (horizontal : Bool) (f : Node) (fs : List Node),
      (idsOf l).Nodup → dn ∈ l → dn.draggable = true → phNode pid ∈ l →
      dn.id ≠ pid → draggableItems l = f :: fs →
      (leadingEdge horizontal x y (rect f.id) →
        updateChildren l dn pid x y rect horizontal none =
          domInsertBefore (domInsertBefore l dn (some f.id)) (phNode pid)
            (nextSiblingId (domInsertBefore l dn (some f.id)) dn.id) ∧
        idxOf (draggableItems (updateChildren l dn pid x y rect horizontal none))
          dn.id = 0 ∧
        nextSiblingId (updateChildren l dn pid x y rect horizontal none) dn.id
          = some pid) ∧
      (¬leadingEdge horizontal x y (rect f.id) →
        trailingEdge horizontal x y (rect (fs.getLastD f).id) →
        updateChildren l dn pid x y rect horizontal none =
          domInsertBefore (domAppend l dn) (phNode pid)
            (nextSiblingId (domAppend l dn) dn.id) ∧
        idxOf (draggableItems (updateChildren l dn pid x y rect horizontal none))
          dn.id =
          ((draggableItems (updateChildren l dn pid x y rect horizontal none)).length
            : Int) - 1 ∧
        nextSiblingId (updateChildren l dn pid x y rect horizontal none) dn.id
          = some pid) ∧
      (¬leadingEdge horizontal x y (rect f.id) →
        ¬trailingEdge horizontal x y (rect (fs.getLastD f).id) →
        updateChildren l dn pid x y rect horizontal none = l)) ∧
    (run (initSt threeItems ⟨false, false⟩) dragOffEndEvs).drops = [(1, 2)] := by
  constructor
  · intro l dn pid x y rect horizontal f fs hnd hdn hdrag hph hdp hitems
    cases horizontal with
    | false =>
      have hred : updateChildren l dn pid x y rect false none =
          (if y < (rect f.id).top then
            domInsertBefore (domInsertBefore l dn (some f.id)) (phNode pid)
              (nextSiblingId (domInsertBefore l dn (some f.id)) dn.id)
          else if y > (rect (fs.getLastD f).id).bottom then
            domInsertBefore (domAppend l dn) (phNode pid)
              (nextSiblingId (domAppend l dn) dn.id)
          else l) := by
        simp only [updateChildren, hitems, Bool.false_eq_true, if_false]
      refine ⟨?_, ?_, ?_⟩
      · intro hlead
        have hl2 : y < (rect f.id).top := by simpa [leadingEdge] using hlead
        obtain ⟨hidx, hadj⟩ := edge_front l dn pid f fs hnd hdn hdrag hph hdp hitems
        rw [hred, if_pos hl2]
        exact ⟨rfl, hidx, hadj⟩
      · intro hlead htrail
        have hl2 : ¬y < (rect f.id).top := by simpa [leadingEdge] using hlead
        have ht2 : y > (rect (fs.getLastD f).id).bottom := by
          simpa [trailingEdge] using htrail
        obtain ⟨hidx, hadj⟩ := edge_end l dn pid hnd hdn hdrag hph hdp
        rw [hred, if_neg hl2, if_pos ht2]
        exact ⟨rfl, hidx, hadj⟩
      · intro hlead htrail
        have hl2 : ¬y < (rect f.id).top := by simpa [leadingEdge] using hlead
        have ht2 : ¬y > (rect (fs.getLastD f).id).bottom := by
          simpa [trailingEdge] using htrail
        rw [hred, if_neg hl2, if_neg ht2]
    | true =>
      have hred : updateChildren l dn pid x y rect true none =
          (if x < (rect f.id).left then
            domInsertBefore (domInsertBefore l dn (some f.id)) (phNode pid)
              (nextSiblingId (domInsertBefore l dn (some f.id)) dn.id)
          else if x > (rect (fs.getLastD f).id).right then
            domInsertBefore (domAppend l dn) (phNode pid)
              (nextSiblingId (domAppend l dn) dn.id)
          else l) := by
        simp only [updateChildren, hitems, if_true]
      refine ⟨?_, ?_, ?_⟩
      · intro hlead
        have hl2 : x < (rect f.id).left := by simpa [leadingEdge] using hlead
        obtain ⟨hidx, hadj⟩ := edge_front l dn pid f fs hnd hdn hdrag hph hdp hitems
        rw [hred, if_pos hl2]
        exact ⟨rfl, hidx, hadj⟩
      · intro hlead htrail
        have hl2 : ¬x < (rect f.id).left := by simpa [leadingEdge] using hlead
        have ht2 : x > (rect (fs.getLastD f).id).right := by
          simpa [trailingEdge] using htrail
        obtain ⟨hidx, hadj⟩ := edge_end l dn pid hnd hdn hdrag hph hdp
        rw [hred, if_neg hl2, if_pos ht2]
        exact ⟨rfl, hidx, hadj⟩
      · intro hlead htrail
        have hl2 : ¬x < (rect f.id).left := by simpa [leadingEdge] using hlead
        have ht2 : ¬x > (rect (fs.getLastD f).id).right := by
          simpa [trailingEdge] using htrail
        rw [hred, if_neg hl2, if_neg ht2]
  · norm_num [dragOffEndEvs, mouseDown2, edgeRects, threeItems, run, step, initSt,
      handlePointerDown, handleMove, handlePointerMove, handlePointerUp,
      dragThreshold, startDrag, cleanup, updateChildren, draggableItems, idxOf,
      freshId, idsOf, nextSiblingId, domInsertBefore, domAppend, insertAtRef,
      insertBeforeId, domRemove, phNode, List.find?, List.filter, List.foldl,
      Rect.bottom, Rect.right]

/-- Witness for the universally quantified part of C7 at a concrete input:
dragging item 2 below the bottom edge of the last of three stacked items
puts it at the last draggable index with the placeholder right after it. -/
theorem edge_fallback_moves_app :
    nextSiblingId (updateChildren
      [⟨1, true, false⟩, ⟨4, false, true⟩, ⟨2, true, false⟩, ⟨3, true, false⟩]
      ⟨2, true, false⟩ 4 0 100 edgeRects false none) 2 = some 4 := by
  have h := (edge_fallback_moves.1
    [⟨1, true, false⟩, ⟨4, false, true⟩, ⟨2, true, false⟩, ⟨3, true, false⟩]
    ⟨2, true, false⟩ 4 0 100 edgeRects false ⟨1, true, false⟩
    [⟨2, true, false⟩, ⟨3, true, false⟩]
    (by decide) (by decide) (by decide) (by decide) (by decide) (by decide)).2.1
    (by norm_num [leadingEdge, edgeRects])
    (by norm_num [trailingEdge, edgeRects, Rect.bottom])
  exact h.2.2

/-- C3, counterexample: reconfiguring to `disabled` during a live drag runs
`cleanup()` — the ghost and placeholder are removed and the session ends —
but the drag-phase document `pointermove`/`pointerup`/`pointercancel`
listeners are NOT detached, contrary to the claim: `update` calls only
`cleanup()`, and the `removeEventListener` calls live solely in
`handlePointerUp` and `destroy`. -/
theorem disable_listeners_cex :
    dragActive.isDragging = true ∧
    dragActive.globalListeners = true ∧
    (step dragActive (Ev.reconfig ⟨true, false⟩)).isDragging = false ∧
    (step dragActive (Ev.reconfig ⟨true, false⟩)).ghostDoc = 0 ∧
    (step dragActive (Ev.reconfig ⟨true, false⟩)).children.countP (·.ph) = 0 ∧
    (step dragActive (Ev.reconfig ⟨true, false⟩)).globalListeners = true := by
  norm_num [dragActive, mouseDown, twoItems, run, step, initSt, handlePointerDown,
    handleMove, dragThreshold, startDrag, cleanup, draggableItems, idxOf, freshId,
    idsOf, nextSiblingId, domInsertBefore, domAppend, insertAtRef, insertBeforeId,
    domRemove, phNode, List.find?, List.filter, List.foldl, List.countP_cons,
    List.countP_nil]

/-- Witness for the amended C3 at a concrete input: the live mouse-drag
session ends cleanly on pointer-up, and on disable-while-dragging everything
is cleaned up except the still-attached document listeners. -/
theorem cleanup_after_session_end_app :
    (step dragActive Ev.dup).ghostDoc = 0 ∧
    (step dragActive Ev.dup).globalListeners = false ∧
    (step dragActive (Ev.reconfig ⟨true, false⟩)).children.countP (·.ph) = 0 ∧
    (step dragActive (Ev.reconfig ⟨true, false⟩)).globalListeners = true := by
  have hfields : dragActive.globalListeners = true ∧ dragActive.isDragging = true ∧
      dragActive.draggedNode = some ⟨1, true, false⟩ ∧ dragActive.ghostVar = true ∧
      dragActive.ghostDoc = 1 ∧ dragActive.placeholderVar = some 3 ∧
      dragActive.children = [⟨1, true, false⟩, ⟨3, false, true⟩, ⟨2, true, false⟩] := by
    norm_num [dragActive, mouseDown, twoItems, run, step, initSt, handlePointerDown,
      handleMove, dragThreshold, startDrag, draggableItems, idxOf, freshId,
      idsOf, nextSiblingId, domInsertBefore, domAppend, insertAtRef, insertBeforeId,
      domRemove, phNode, List.find?, List.filter, List.foldl]
  obtain ⟨h1, h2, h3, h4, h5, h6, h7⟩ := hfields
  have h := cleanup_after_session_end dragActive ⟨1, true, false⟩ 3 false
    h1 h2 h3 h4 h5 h6 (by rw [h7]; decide)
  exact ⟨h.1.1, h.1.2.2.2, h.2.2.1, h.2.2.2.2.2⟩

/-- Witness for C5 at a concrete input: a mouse down, a 5 px move (below the
8 px threshold) and a pointer-up leave the controller idle with no drops. -/
theorem below_threshold_no_drag_app :
    (step (run (step (initSt twoItems ⟨false, false⟩) (Ev.down mouseDown))
      [Ev.pmove 5 0 50]) Ev.pup).isDragging = false ∧
    (step (run (step (initSt twoItems ⟨false, false⟩) (Ev.down mouseDown))
      [Ev.pmove 5 0 50]) Ev.pup).drops = [] := by
  have h := below_threshold_no_drag (initSt twoItems ⟨false, false⟩) mouseDown
    [(5, 0, 50)] rfl rfl rfl
    (by
      intro m hm
      simp only [List.mem_singleton] at hm
      subst hm
      norm_num [mouseDown, dragThreshold])
  exact ⟨h.2.1, h.2.2⟩

/-! ### Claim C8 -/

theorem countP_ph_domRemove_dn {l : List Node} {dn : Node} {p : Nat}
    (hall : ∀ m ∈ l, m.ph = true → m = phNode p) (hdnp : dn.id ≠ p) :
    (domRemove l dn.id).countP (·.ph) = l.countP (·.ph) := by
  unfold domRemove
  rw [List.countP_filter]
  apply List.countP_congr
  intro a ha
  simp only [Bool.and_eq_true, decide_eq_true_eq]
  constructor
  · rintro ⟨h1, -⟩; exact h1
  · intro h1
    refine ⟨h1, ?_⟩
    have := hall a ha h1
    rw [this]
    simpa [phNode] using fun hc => hdnp hc.symm

theorem countP_ph_domRemove_p {l : List Node} {p : Nat}
    (hall : ∀ m ∈ l, m.ph = true → m = phNode p) :
    (domRemove l p).countP (·.ph) = 0 := by
  unfold domRemove
  rw [List.countP_filter, List.countP_eq_zero]
  intro a ha
  simp only [Bool.and_eq_true, decide_eq_true_eq]
  rintro ⟨h1, h2⟩
  have := hall a ha h1
  rw [this] at h2
  simp [phNode] at h2

/-- Inserting either the dragged node or the session's placeholder node
anywhere preserves the children's well-formedness. -/
theorem childrenWF_insert {l : List Node} {dn : Node} {p : Nat} (n : Node)
    (ref : Option Nat) (hwf : ChildrenWF dn p l)
    (hdnph : dn.ph = false) (hdnp : dn.id ≠ p)
    (hn : n = dn ∨ n = phNode p) :
    ChildrenWF dn p (domInsertBefore l n ref) := by
  obtain ⟨hnd, hcount, hall, huniq⟩ := hwf
  have hperm := domInsertBefore_perm l n ref
  refine ⟨nodup_ids_domInsertBefore hnd n ref, ?_, ?_, ?_⟩
  · rw [hperm.countP_eq, List.countP_cons]
    rcases hn with h | h
    · subst h
      rw [countP_ph_domRemove_dn hall hdnp, hcount]
      simp [hdnph]
    · subst h
      rw [show (phNode p).id = p from rfl, countP_ph_domRemove_p hall]
      simp [phNode]
  · intro m hm hph2
    rcases List.mem_cons.mp (hperm.mem_iff.mp hm) with h | h
    · subst h
      rcases hn with h | h
      · subst h
        rw [hdnph] at hph2
        cases hph2
      · exact h
    · exact hall m (List.mem_of_mem_filter h) hph2
  · intro m hm hid
    rcases List.mem_cons.mp (hperm.mem_iff.mp hm) with h | h
    · subst h
      rcases hn with h | h
      · exact h
      · subst h
        exact absurd hid.symm (by simpa [phNode] using hdnp)
    · exact huniq m (List.mem_of_mem_filter h) hid

/-- `updateDragPosition`'s child mutation preserves the children's
well-formedness. -/
theorem updateChildren_wf (l : List Node) (dn : Node) (p : Nat) (x y : ℚ)
    (rect : Nat → Rect) (horiz : Bool) (hit : Option Nat)
    (hwf : ChildrenWF dn p l) (hdnph : dn.ph = false) (hdnp : dn.id ≠ p) :
    ChildrenWF dn p (updateChildren l dn p x y rect horiz hit) := by
  have step1 : ∀ (l2 : List Node) (ref : Option Nat),
      ChildrenWF dn p l2 → ChildrenWF dn p (domInsertBefore l2 dn ref) :=
    fun l2 ref h => childrenWF_insert dn ref h hdnph hdnp (Or.inl rfl)
  have step2 : ∀ (l2 : List Node) (ref : Option Nat),
      ChildrenWF dn p l2 → ChildrenWF dn p (domInsertBefore l2 (phNode p) ref) :=
    fun l2 ref h => childrenWF_insert (phNode p) ref h hdnph hdnp (Or.inr rfl)
  have step1a : ∀ (l2 : List Node), ChildrenWF dn p l2 → ChildrenWF dn p (domAppend l2 dn) :=
    fun l2 h => by rw [domAppend_eq_insert_none]; exact step1 l2 none h
  cases hit with
  | some hv =>
    simp only [updateChildren]
    repeat' split
    all_goals first
      | exact hwf
      | exact step1 _ _ hwf
      | exact step1a _ hwf
      | exact step2 _ _ hwf
      | exact step2 _ _ (step1 _ _ hwf)
      | exact step2 _ _ (step1a _ hwf)
  | none =>
    simp only [updateChildren]
    repeat' split
    all_goals first
      | exact hwf
      | exact step1 _ _ hwf
      | exact step1a _ hwf
      | exact step2 _ _ hwf
      | exact step2 _ _ (step1 _ _ hwf)
      | exact step2 _ _ (step1a _ hwf)

/-- `cleanup` re-establishes the idle side of the invariant. -/
theorem sessionInv_cleanup {s : DndState} (hinv : SessionInv s) :
    SessionInv (cleanup s) := by
  obtain ⟨hnd, hfalse, htrue⟩ := hinv
  cases hdr : s.isDragging with
  | false =>
    obtain ⟨hg0, hgv, hpv, hc0, hdn⟩ := hfalse hdr
    have hclean : cleanup s = { s with
        pending := none, draggedNode := none,
        isDragging := false, draggedIndex := -1, hasMoved := false } := by
      unfold cleanup
      simp only [hgv, hpv, hdn, Bool.false_eq_true, if_false]
    rw [hclean]
    refine ⟨hnd, fun _ => ⟨hg0, hgv, hpv, hc0, rfl⟩, fun hcontra => by cases hcontra⟩
  | true =>
    obtain ⟨hg1, hgv, p, dn, hpv, hdn, hdnph, hdndr, hdnp, hwf⟩ := htrue hdr
    obtain ⟨hndc, hcount, hall, huniq⟩ := hwf
    have hclean : cleanup s = { s with
        pending := none
        ghostVar := false
        ghostDoc := s.ghostDoc - 1
        children := s.children.filter (fun n => ¬(n.ph ∧ n.id = p))
        placeholderVar := none
        style := fun i => if i = dn.id then defaultStyle else s.style i
        draggedNode := none
        isDragging := false
        draggedIndex := -1
        hasMoved := false } := by
      unfold cleanup
      simp only [hgv, hpv, hdn, eq_self_iff_true, if_true]
    rw [hclean]
    refine ⟨?_, fun _ => ⟨by rw [hg1], rfl, rfl, ?_, rfl⟩, fun hcontra => by cases hcontra⟩
    · show (idsOf (s.children.filter (fun n => ¬(n.ph ∧ n.id = p)))).Nodup
      have h0 : List.Sublist (s.children.filter (fun n => ¬(n.ph ∧ n.id = p))) s.children :=
        List.filter_sublist s.children
      have h1 := List.Sublist.map (fun n : Node => n.id) h0
      exact hnd.sublist (by simpa [idsOf] using h1)
    · rw [List.countP_eq_zero]
      intro n hn
      rcases List.mem_filter.mp hn with ⟨hmem, hpred⟩
      simp only [decide_eq_true_eq] at hpred
      intro hph
      refine hpred ⟨by simpa using hph, ?_⟩
      rw [hall n hmem (by simpa using hph)]
      simp [phNode]

/-- `startDrag` establishes the dragging side of the invariant. -/
theorem sessionInv_startDrag {s : DndState} (item : Nat) (hinv : SessionInv s) :
    SessionInv (startDrag s item) := by
  obtain ⟨hnd, hfalse, htrue⟩ := hinv
  cases hdr : s.isDragging with
  | true =>
    have hsd : startDrag s item = s := by unfold startDrag; rw [if_pos hdr]
    rw [hsd]
    exact ⟨hnd, hfalse, htrue⟩
  | false =>
    obtain ⟨hg0, hgv, hpv, hc0, hdn⟩ := hfalse hdr
    by_cases hidx : idxOf (draggableItems s.children) item = -1
    · have hsd : startDrag s item = { s with
          isDragging := false, draggedNode := none, draggedIndex := -1 } := by
        simp [startDrag, hdr, hidx]
      rw [hsd]
      exact ⟨hnd, fun _ => ⟨hg0, hgv, hpv, hc0, rfl⟩, fun hcontra => by cases hcontra⟩
    · have hmem : item ∈ idsOf s.children := by
        have h1 : item ∈ idsOf (draggableItems s.children) :=
          (idxOf_ne_neg_one_iff _ _).mp hidx
        rcases mem_idsOf.mp h1 with ⟨n, hn, hid⟩
        exact mem_idsOf.mpr ⟨n, List.mem_of_mem_filter hn, hid⟩
      rcases find?_id_mem hmem with ⟨dn, hfind, hid⟩
      have hdmem : dn ∈ s.children := List.mem_of_find?_eq_some hfind
      have hnoph : ∀ m ∈ s.children, ¬(m.ph = true) := List.countP_eq_zero.mp hc0
      have hdnph : dn.ph = false := by
        have := hnoph dn hdmem
        simpa using this
      have hdndr : dn.draggable = true := by
        rcases mem_idsOf.mp ((idxOf_ne_neg_one_iff _ _).mp hidx) with ⟨m, hm, hmid⟩
        have hmc : m ∈ s.children := List.mem_of_mem_filter hm
        have hmdn : m = dn := eq_of_mem_ids_nodup hnd hmc hdmem (by rw [hmid, hid])
        rw [← hmdn]
        exact (List.mem_filter.mp hm).2
      have hsd : startDrag s item = { s with
          isDragging := true
          draggedNode := some dn
          draggedIndex := idxOf (draggableItems s.children) item
          ghostVar := true
          ghostDoc := s.ghostDoc + 1
          placeholderVar := some (freshId s.children)
          children := domInsertBefore s.children (phNode (freshId s.children))
            (nextSiblingId s.children item)
          style := fun i => if i = item then dragStyle else s.style i
          globalListeners := true } := by
        simp [startDrag, hdr, hidx, hfind]
      rw [hsd]
      have hfresh : freshId s.children ∉ idsOf s.children := freshId_not_mem s.children
      have hdnpid : dn.id ≠ freshId s.children := by
        intro hc
        exact hfresh (hc ▸ mem_idsOf.mpr ⟨dn, hdmem, rfl⟩)
      have hrem : domRemove s.children (phNode (freshId s.children)).id = s.children :=
        domRemove_eq_self (by simpa [phNode] using hfresh)
      have hperm := domInsertBefore_perm s.children (phNode (freshId s.children))
        (nextSiblingId s.children item)
      refine ⟨nodup_ids_domInsertBefore hnd _ _, ?_, ?_⟩
      · intro hcontra
        simp at hcontra
      · intro _
        refine ⟨by rw [hg0], rfl, freshId s.children, dn, rfl, rfl, hdnph, hdndr,
          hdnpid, ?_, ?_, ?_, ?_⟩
        · exact nodup_ids_domInsertBefore hnd _ _
        · rw [hperm.countP_eq, List.countP_cons, hrem, hc0]
          simp [phNode]
        · intro m hm hph2
          rcases List.mem_cons.mp (hperm.mem_iff.mp hm) with h | h
          · exact h
          · rw [hrem] at h
            exact absurd hph2 (hnoph m h)
        · intro m hm hmid
          rcases List.mem_cons.mp (hperm.mem_iff.mp hm) with h | h
          · exfalso
            apply hdnpid
            rw [← hmid, h]
            simp [phNode]
          · rw [hrem] at h
            exact eq_of_mem_ids_nodup hnd h hdmem hmid

/-- Every event preserves the session invariant. -/
theorem sessionInv_step {s : DndState} (e : Ev) (hinv : SessionInv s) :
    SessionInv (step s e) := by
  obtain ⟨hnd, hfalse, htrue⟩ := hinv
  cases e with
  | down e =>
    simp only [step, handlePointerDown]
    repeat' split
    all_goals exact ⟨hnd, hfalse, htrue⟩
  | pmove x y now =>
    cases hp : s.pending with
    | none =>
      simp only [step, handleMove, hp]
      exact ⟨hnd, hfalse, htrue⟩
    | some g =>
      have hpromote : SessionInv
          { startDrag { s with hasMoved := true, pending := some g } g.item with
            pending := none } := by
        have h1 : SessionInv { s with hasMoved := true, pending := some g } :=
          ⟨hnd, hfalse, htrue⟩
        have h2 := sessionInv_startDrag g.item h1
        exact ⟨h2.1, h2.2.1, h2.2.2⟩
      simp only [step, handleMove, hp]
      repeat' split
      all_goals first
        | exact ⟨hnd, hfalse, htrue⟩
        | exact hpromote
  | pup =>
    simp only [step]
    split
    · exact ⟨hnd, hfalse, htrue⟩
    · exact ⟨hnd, hfalse, htrue⟩
  | dmove x y horiz hit rect =>
    have hupd : ∀ dn2 pid2, s.draggedNode = some dn2 → s.placeholderVar = some pid2 →
        s.isDragging = true →
        SessionInv { s with
          children := updateChildren s.children dn2 pid2 x y rect horiz hit } := by
      intro dn2 pid2 hdn2 hpv2 hdr
      obtain ⟨hg1, hgv, p, dn, hpv, hdn, hdnph, hdndr, hdnp, hwf⟩ := htrue hdr
      have hdneq : dn = dn2 := Option.some.inj (hdn.symm.trans hdn2)
      have hpeq : p = pid2 := Option.some.inj (hpv.symm.trans hpv2)
      subst hdneq
      subst hpeq
      have hwf2 := updateChildren_wf s.children dn p x y rect horiz hit hwf hdnph hdnp
      refine ⟨hwf2.1, ?_, ?_⟩
      · intro hf
        rw [hdr] at hf
        cases hf
      · intro _
        exact ⟨hg1, hgv, p, dn, hpv, hdn, hdnph, hdndr, hdnp, hwf2⟩
    simp only [step, handlePointerMove]
    repeat' split
    all_goals first
      | exact ⟨hnd, hfalse, htrue⟩
      | exact hupd _ _ (by first | assumption | (apply Eq.symm; assumption))
          (by first | assumption | (apply Eq.symm; assumption)) (by assumption)
  | dup =>
    have hs1 : ∀ s1 : DndState, s1.children = s.children →
        s1.isDragging = s.isDragging → s1.ghostDoc = s.ghostDoc →
        s1.ghostVar = s.ghostVar → s1.placeholderVar = s.placeholderVar →
        s1.draggedNode = s.draggedNode →
        SessionInv { cleanup s1 with globalListeners := false } := by
      intro s1 hc hd hg hgv hpv hdnn
      have hinv1 : SessionInv s1 := by
        refine ⟨by rw [hc]; exact hnd, ?_, ?_⟩
        · intro hf
          rw [hd] at hf
          obtain ⟨a1, a2, a3, a4, a5⟩ := hfalse hf
          exact ⟨by rw [hg, a1], by rw [hgv, a2], by rw [hpv, a3],
            by rw [hc]; exact a4, by rw [hdnn, a5]⟩
        · intro ht
          rw [hd] at ht
          obtain ⟨a1, a2, p, dn, a3, a4, a5, a6, a7, a8⟩ := htrue ht
          exact ⟨by rw [hg, a1], by rw [hgv, a2], p, dn, by rw [hpv, a3],
            by rw [hdnn, a4], a5, a6, a7, by rw [hc]; exact a8⟩
      have h2 := sessionInv_cleanup hinv1
      exact ⟨h2.1, h2.2.1, h2.2.2⟩
    simp only [step, handlePointerUp]
    repeat' split
    all_goals first
      | exact ⟨hnd, hfalse, htrue⟩
      | exact hs1 _ rfl rfl rfl rfl rfl rfl
  | reconfig o =>
    simp only [step]
    split
    · have hinv1 : SessionInv { s with opts := o } := ⟨hnd, hfalse, htrue⟩
      exact sessionInv_cleanup hinv1
    · exact ⟨hnd, hfalse, htrue⟩

/-- The invariant holds in a freshly attached controller whose initial
children have pairwise distinct ids and contain no placeholder. -/
theorem sessionInv_initSt {c : List Node} (o : Opts) (hnd : (idsOf c).Nodup)
    (hc0 : c.countP (·.ph) = 0) : SessionInv (initSt c o) :=
  ⟨hnd, fun _ => ⟨rfl, rfl, rfl, hc0, rfl⟩, fun hcontra => by cases hcontra⟩

/-- The invariant is preserved along any event trace. -/
theorem sessionInv_run {s : DndState} (evs : List Ev) (hinv : SessionInv s) :
    SessionInv (run s evs) := by
  induction evs generalizing s with
  | nil => exact hinv
  | cons e evs ih => exact ih (sessionInv_step e hinv)

/-- C8: while a drag session is active every pointer-down is ignored (the
controller state is unchanged, so a second session cannot start), and in
every state reachable from a well-formed initial child list (distinct ids,
no placeholder) at most one ghost element and at most one placeholder
element exist. -/
theorem exclusivity_single_session :
    (∀ (s : DndState) (e : DownInfo), s.isDragging = true → step s (Ev.down e) = s) ∧
    (∀ (c : List Node) (o : Opts) (s : DndState),
      (idsOf c).Nodup → c.countP (·.ph) = 0 → Reachable c o s →
        s.ghostDoc ≤ 1 ∧ s.children.countP (·.ph) ≤ 1) := by
  constructor
  · intro s e hdr
    simp only [step, handlePointerDown]
    rw [if_pos (Or.inr hdr)]
  · rintro c o s hnd hc0 ⟨evs, rfl⟩
    obtain ⟨-, hfalse, htrue⟩ := sessionInv_run evs (sessionInv_initSt o hnd hc0)
    cases hdr : (run (initSt c o) evs).isDragging with
    | false =>
      obtain ⟨hg0, -, -, hcc, -⟩ := hfalse hdr
      exact ⟨by rw [hg0]; exact Nat.zero_le 1, by rw [hcc]; exact Nat.zero_le 1⟩
    | true =>
      obtain ⟨hg1, -, p, dn, -, -, -, -, -, -, hcount, -, -⟩ := htrue hdr
      exact ⟨le_of_eq hg1, le_of_eq hcount⟩

/-- Witness for C8 at concrete inputs: a pointer-down on a state that is
mid-drag leaves it unchanged, and a freshly attached two-item controller
that received one pointer-down has at most one ghost and placeholder. -/
theorem exclusivity_single_session_app :
    step { initSt twoItems ⟨false, false⟩ with isDragging := true } (Ev.down mouseDown) =
      { initSt twoItems ⟨false, false⟩ with isDragging := true } ∧
    ((run (initSt twoItems ⟨false, false⟩) [Ev.down mouseDown]).ghostDoc ≤ 1 ∧
      (run (initSt twoItems ⟨false, false⟩) [Ev.down mouseDown]).children.countP (·.ph) ≤ 1) :=
  ⟨exclusivity_single_session.1 { initSt twoItems ⟨false, false⟩ with isDragging := true }
      mouseDown rfl,
    exclusivity_single_session.2 twoItems ⟨false, false⟩ _ (by decide) (by decide)
      ⟨[Ev.down mouseDown], rfl⟩⟩

/-- Witness for C10 at a concrete input: a pointer-up on a mid-drag state
whose dragged element is gone from the child list fires no onDrop while
ghost, placeholder, styling and listeners are all cleaned up. -/
theorem missing_item_no_drop_app :
    (step orphanedDrag Ev.dup).drops = orphanedDrag.drops ∧
    (step orphanedDrag Ev.dup).ghostDoc = 0 ∧
    (step orphanedDrag Ev.dup).children.countP (·.ph) = 0 ∧
    (step orphanedDrag Ev.dup).style (1 : Nat) = defaultStyle ∧
    (step orphanedDrag Ev.dup).globalListeners = false :=
  missing_item_no_drop orphanedDrag ⟨1, true, false⟩ 3 rfl rfl rfl (by decide) rfl rfl rfl
    (by decide)

end Dnd
